import Mathlib

/-!
# Verification of the `js-utility-scripts` tree ⇄ document utilities

This file gives a shallow embedding of the two CLI utilities in
`src/generateNodeJsProjectStructureFiles/generateNodeJsProjectStructureFiles.js`:

* the **Tree Writer** (`generateProject`, lines 11-70 plus the CLI glue at
  lines 72-87), which consumes a JSON document
  `{ "project_files": [ { "name": ..., "content": ... }, ... ] }` and
  materialises a directory tree, and
* the **Tree Reader** (`readDirectoryStructure`, lines 108-148, plus the CLI
  glue at lines 150-210 including the `createDummyProject` demonstration
  routine at lines 172-191), which walks a directory and produces a nested
  JSON mapping.

The filesystem is embedded as finite trees of named entries.  For the writer
we use `PNode` (pure content-bearing trees: a real directory is a finite map
from names to entries, represented here as an association list with unique
keys; `noDupL` states that faithfulness condition).  For the reader we use
`FSNode`, which additionally has constructors modelling the failure modes the
reader code distinguishes: a file whose `readFileSync` throws (`badFile`), a
directory whose `readdirSync` throws (`badDir`), an entry whose `statSync`
throws (`badStat`), and an entry that is neither a regular file nor a
directory (`special`).

Machine-level aspects that the claims do not touch (text encoding details,
`path.resolve`, permissions of the process) are not modelled; paths are lists
of name segments, and the hypotheses `wellFormedName`/`wfEntry` on theorems
record the conditions under which `path.join`/`path.dirname` on a relative
name coincide with splitting the name on `/`.
-/

set_option autoImplicit false

namespace JsUtil

/-- A pure filesystem tree node: a regular file with text content, or a
directory with a list of named entries (embeds the trees the writer builds
and the writer's pre-existing output directory). -/
inductive PNode where
  | file (content : String)
  | dir (entries : List (String × PNode))

/-- The entry list of a directory. -/
abbrev Dir := List (String × PNode)

/-- First entry with the given name (directory entries of a real filesystem
are unique, cf. `noDupL`). -/
def lookupE : Dir → String → Option PNode
  | [], _ => none
  | (k, v) :: es, n => if k = n then some v else lookupE es n

/-- Replace the entry named `n` (keeping its position), or append a new one:
the effect of creating/overwriting a directory entry. -/
def insertE : Dir → String → PNode → Dir
  | [], n, v => [(n, v)]
  | (k, w) :: es, n, v => if k = n then (k, v) :: es else (k, w) :: insertE es n v

/-- Resolve a path (list of name segments) under a directory.
`getPath d [] = some (.dir d)`: the empty path is the directory itself. -/
def getPath : Dir → List String → Option PNode
  | d, [] => some (.dir d)
  | d, s :: rest =>
    match lookupE d s with
    | none => none
    | some (.file c) => if rest = [] then some (.file c) else none
    | some (.dir sub) => getPath sub rest

/-- `fs.existsSync` on a path under the root. -/
def existsPath (d : Dir) (p : List String) : Bool := (getPath d p).isSome

/-- The path resolves to a directory. -/
def isDirAt (d : Dir) (p : List String) : Bool :=
  match getPath d p with
  | some (.dir _) => true
  | _ => false

/-- The path resolves to a regular file (of some content). -/
def isFileAt (d : Dir) (p : List String) : Bool :=
  match getPath d p with
  | some (.file _) => true
  | _ => false

/-- A name is already present in the entry list. -/
def hasKey (d : Dir) (n : String) : Bool := (lookupE d n).isSome

mutual
/-- Entry names are unique in every directory of the tree — the faithfulness
invariant under which `Dir` association lists represent real directories. -/
def noDupN : PNode → Bool
  | .file _ => true
  | .dir es => noDupL es

def noDupL : Dir → Bool
  | [] => true
  | (n, x) :: rest => !hasKey rest n && noDupN x && noDupL rest
end

/-- `fs.mkdirSync(…, { recursive: true })`: create every missing directory
along the path; fails (returns `none`) iff some existing component is a
regular file.  A failing call creates nothing: the failing component exists
as a file, hence so do all its ancestors. -/
def mkdirRec : Dir → List String → Option Dir
  | d, [] => some d
  | d, s :: rest =>
    match lookupE d s with
    | some (.dir sub) => (mkdirRec sub rest).map (fun sub2 => insertE d s (.dir sub2))
    | some (.file _) => none
    | none => (mkdirRec [] rest).map (fun sub2 => insertE d s (.dir sub2))

/-- `fs.writeFileSync(root/p, c)`: overwrite or create the file at `p`.
Fails (`none`) iff the path is empty, an intermediate component is not an
existing directory, or the target is a directory. -/
def writeFile : Dir → List String → String → Option Dir
  | _, [], _ => none
  | d, [s], c =>
    match lookupE d s with
    | some (.dir _) => none
    | _ => some (insertE d s (.file c))
  | d, s :: rest, c =>
    match lookupE d s with
    | some (.dir sub) => (writeFile sub rest c).map (fun sub2 => insertE d s (.dir sub2))
    | _ => none

/-- One element of the `project_files` array, as the writer inspects it:
`name` is `none` when the key is absent, `content` is `none` when
`typeof file.content === 'undefined'`. -/
structure RawEntry where
  name : Option String
  content : Option String

/-- The guard at line 40 of the source: `!file.name` is true for an absent
or empty name, and the entry is also skipped when `content` is undefined. -/
def validEntry (e : RawEntry) : Bool :=
  match e.name, e.content with
  | some n, some _ => !(n = "")
  | _, _ => false

/-- Splitting accumulator: cut the remaining characters at every `/`. -/
def splitNameAux : List Char → String → List String
  | [], acc => [acc]
  | c :: cs, acc =>
    if c = '/' then acc :: splitNameAux cs "" else splitNameAux cs (acc.push c)

/-- `path.join(root, name)` splits the relative name on the separator
(behaves exactly like `String.splitOn "/"`, but defined by structural
recursion on the characters). -/
def splitName (s : String) : List String := splitNameAux s.data ""

/-- The segments of the entry's name. -/
def entrySegs (e : RawEntry) : List String := splitName (e.name.getD "")

/-- The entry's content (only used on valid entries, where it is present). -/
def entryContent (e : RawEntry) : String := e.content.getD ""

/-- A path segment under which `path.join`/`path.dirname` behave purely
segment-wise: nonempty and not a dot component. -/
def wellFormedSeg (s : String) : Bool := !(s = "") && !(s = ".") && !(s = "..")

/-- Names for which splitting on `/` agrees with `path.join`/`path.dirname`
semantics: at least one segment, all segments well-formed. -/
def wellFormedName (s : String) : Bool :=
  !(splitName s).isEmpty && (splitName s).all wellFormedSeg

/-- A fully well-behaved writer entry: passes the validity guard and has a
well-formed relative name. -/
def wfEntry (e : RawEntry) : Bool :=
  validEntry e && wellFormedName (e.name.getD "")

/-- Lines 45-57 of the source for a single valid entry: compute
`dirName = path.dirname(path.join(root, name))`, create it (recursively) if
`existsSync` is false, then `writeFileSync` the content.  Returns the new
root state and whether an exception was thrown (which the `catch` at line 62
turns into `process.exit(1)`). -/
def writeEntry (d : Dir) (segs : List String) (c : String) : Dir × Bool :=
  match (if existsPath d segs.dropLast then some d else mkdirRec d segs.dropLast) with
  | none => (d, true)
  | some d2 =>
    match writeFile d2 segs c with
    | none => (d2, true)
    | some d3 => (d3, false)

/-- Result of processing the `project_files` array: final root state, the
entries skipped with a warning, and whether the run aborted with an error. -/
structure WOut where
  dir : Dir
  skipped : List RawEntry
  failed : Bool

/-- The `forEach` over `project_files` (lines 39-58): invalid entries are
warned about and skipped; a filesystem exception aborts the whole run
(caught at line 62), leaving the writes performed so far in place. -/
def processEntries : List RawEntry → Dir → WOut
  | [], d => ⟨d, [], false⟩
  | e :: rest, d =>
    if validEntry e then
      match writeEntry d (entrySegs e) (entryContent e) with
      | (d2, true) => ⟨d2, [], true⟩
      | (d2, false) => processEntries rest d2
    else
      let r := processEntries rest d
      ⟨r.dir, e :: r.skipped, r.failed⟩

/-- The possible shapes of the writer's input, after `existsSync`,
`readFileSync` and `JSON.parse` on the input path: missing file, malformed
JSON, a parsed value whose `project_files` is absent/falsy, present but not
an array, or an actual array of entries. -/
inductive InputDoc where
  | notFound
  | invalidJSON
  | noProjectFiles
  | notArray
  | files (entries : List RawEntry)

/-- Observable outcome of one `generateProject` run: the state of the output
root (`none` = the directory does not exist), the process exit code, and the
entries skipped with a warning. -/
structure GenResult where
  root : Option Dir
  exitCode : Nat
  skipped : List RawEntry

/-- `generateProject` (lines 11-70): validation happens before any
filesystem mutation; on a valid document the root directory is created if
absent and the entries are processed in order.  Exit code 1 models the
`catch` branch (which also prints an error message); exit code 0 is the
normal completion of the script. -/
def generateProject (doc : InputDoc) (root0 : Option Dir) : GenResult :=
  match doc with
  | .files es =>
    let r := processEntries es (root0.getD [])
    ⟨some r.dir, if r.failed then 1 else 0, r.skipped⟩
  | _ => ⟨root0, 1, []⟩

/-- The targets of the successful `writeFileSync` calls of a run, in order
(used to track which file contents a run overwrites). -/
def writtenPaths : List RawEntry → Dir → List (List String)
  | [], _ => []
  | e :: rest, d =>
    if validEntry e then
      match writeEntry d (entrySegs e) (entryContent e) with
      | (_, true) => []
      | (d2, false) => entrySegs e :: writtenPaths rest d2
    else writtenPaths rest d

/-! ## The Tree Reader -/

/-- A filesystem node as seen by the reader, including the failure modes the
reader's code distinguishes: `badFile` is a regular file whose
`readFileSync` throws with the given message, `badDir` a directory whose
`readdirSync` throws, `badStat` an entry whose `statSync` throws, and
`special` an entry that is neither a regular file nor a directory. -/
inductive FSNode where
  | file (content : String)
  | badFile (msg : String)
  | dir (entries : List (String × FSNode))
  | badDir (msg : String)
  | badStat (msg : String)
  | special

/-- A JSON value of the reader's output schema: a string, or an object. -/
inductive JSON where
  | str (s : String)
  | obj (entries : List (String × JSON))

mutual
/-- `readDirectoryStructure` (lines 108-148): lists the directory, stats
each entry, recurses into subdirectories, reads files (turning a read error
into an `Error reading file: …` string entry), and turns an error of the
directory listing itself — or an uncaught `statSync` error from the
`forEach` — into a single `{ error: … }` object. -/
def readDirectoryStructure : FSNode → JSON
  | .dir entries =>
    match readItems entries with
    | .ok kvs => .obj kvs
    | .error m => .obj [("error", .str ("Error reading directory: " ++ m))]
  | .badDir m => .obj [("error", .str ("Error reading directory: " ++ m))]
  | .badStat m => .obj [("error", .str ("Error reading directory: " ++ m))]
  | .file _ => .obj [("error", .str "Error reading directory: ENOTDIR")]
  | .badFile _ => .obj [("error", .str "Error reading directory: ENOTDIR")]
  | .special => .obj [("error", .str "Error reading directory: ENOTDIR")]

/-- The `forEach` at lines 117-140: builds the result object in listing
order; a `statSync` failure throws out of the whole loop (the `.error`
case), discarding the siblings already read. -/
def readItems : List (String × FSNode) → Except String (List (String × JSON))
  | [] => .ok []
  | (n, .file c) :: rest =>
    (readItems rest).map (fun kvs => (n, .str c) :: kvs)
  | (n, .badFile m) :: rest =>
    (readItems rest).map (fun kvs => (n, .str ("Error reading file: " ++ m)) :: kvs)
  | (n, .dir es) :: rest =>
    (readItems rest).map (fun kvs => (n, readDirectoryStructure (.dir es)) :: kvs)
  | (n, .badDir m) :: rest =>
    (readItems rest).map (fun kvs => (n, readDirectoryStructure (.badDir m)) :: kvs)
  | (_, .badStat m) :: _ => .error m
  | (_, .special) :: rest => readItems rest
end

/-- The value the reader assigns to a single successfully-stat'ed entry. -/
def readValue : FSNode → JSON
  | .file c => .str c
  | x => readDirectoryStructure x

mutual
/-- The tree contains only regular files and listable directories. -/
def pureFS : FSNode → Bool
  | .file _ => true
  | .dir es => pureList es
  | _ => false

def pureList : List (String × FSNode) → Bool
  | [] => true
  | (_, x) :: rest => pureFS x && pureList rest
end

mutual
/-- Embed a writer tree as a reader tree (all entries regular and readable). -/
def PNode.toFS : PNode → FSNode
  | .file c => .file c
  | .dir es => .dir (toFSList es)

def toFSList : List (String × PNode) → List (String × FSNode)
  | [] => []
  | (n, x) :: rest => (n, PNode.toFS x) :: toFSList rest
end

mutual
/-- The reader's output on a pure tree, described directly. -/
def pureValue : PNode → JSON
  | .file c => .str c
  | .dir es => .obj (pureDirValue es)

def pureDirValue : Dir → List (String × JSON)
  | [] => []
  | (n, x) :: rest => (n, pureValue x) :: pureDirValue rest
end

/-- First binding of a key in a JSON object entry list. -/
def lookupJ : List (String × JSON) → String → Option JSON
  | [], _ => none
  | (k, v) :: es, n => if k = n then some v else lookupJ es n

/-- Navigate a JSON value along a path of keys. -/
def jsonLookup : JSON → List String → Option JSON
  | j, [] => some j
  | .obj kvs, s :: rest =>
    match lookupJ kvs s with
    | some j => jsonLookup j rest
    | none => none
  | .str _, _ :: _ => none

/-! ## The Tree Reader CLI -/

/-- The fixed tree that `createDummyProject` (lines 172-191) leaves at the
target path: it first `rmSync`s the path recursively, then creates `src`,
`test`, `package.json`, `src/index.js`, `src/utils.js` and
`test/utils.test.js`. -/
def dummyProject : FSNode :=
  .dir
    [ ("src", .dir
        [ ("index.js", .file "console.log(\"Hello, World!\");")
        , ("utils.js", .file "const add = (a, b) => a + b;") ])
    , ("test", .dir
        [ ("utils.test.js", .file "// Test cases for utils.js") ])
    , ("package.json", .file
        "\x7b\n  \"name\": \"dummy-project\",\n  \"version\": \"1.0.0\"\n\x7d") ]

/-- Observable outcome of one run of the reader CLI: exit code, the result
of the first `readDirectoryStructure(projectPath)` call (line 170, whose
value is overwritten before printing), the JSON printed to stdout (the
second read, line 194), and the final state of the target path. -/
structure CLIResult where
  exitCode : Nat
  firstRead : Option JSON
  printed : Option JSON
  finalRoot : Option FSNode

/-- The reader CLI (lines 150-210): with no argument it exits 1; otherwise
it reads the target once, unconditionally runs `createDummyProject` (which
deletes the target and recreates the fixed dummy tree), reads again, prints
that JSON, and finishes with exit code 0 (all read errors having been
converted to error-marker objects by `readDirectoryStructure`; the demo
recreation and the `project-structure.json` side write are assumed not to
throw). -/
def readerCLI (argProvided : Bool) (root : FSNode) : CLIResult :=
  if argProvided then
    ⟨0, some (readDirectoryStructure root),
      some (readDirectoryStructure dummyProject), some dummyProject⟩
  else
    ⟨1, none, none, some root⟩

/-- Top-level names of a directory node (observer used to separate trees). -/
def FSNode.topNames : FSNode → List String
  | .dir es => es.map Prod.fst
  | _ => []

/-- Top-level keys of a JSON object (observer used to separate values). -/
def JSON.keys : JSON → List String
  | .obj es => es.map Prod.fst
  | .str _ => []

/-- The entry's `statSync` throws. -/
def isStatFail : FSNode → Bool
  | .badStat _ => true
  | _ => false

/-! ## Reader lemmas -/

/-- On a list free of `statSync` failures, the `forEach` completes and the
result prefixes compose: reading `pre ++ rest` prepends the values of the
pure prefix `pre` to the reading of `rest`. -/
theorem readItems_append_pure (pre : List (String × FSNode))
    (rest : List (String × FSNode)) (h : pureList pre = true) :
    readItems (pre ++ rest) =
      (readItems rest).map
        (fun kvs => (pre.map fun p => (p.1, readValue p.2)) ++ kvs) := by
  induction pre with
  | nil =>
    simp only [List.nil_append, List.map_nil]
    cases readItems rest <;> simp [Except.map]
  | cons hd tl ih =>
    obtain ⟨n, x⟩ := hd
    cases x with
    | file c =>
      have htl : pureList tl = true := by
        simp only [pureList, pureFS, Bool.true_and] at h; exact h
      simp only [List.cons_append, readItems, List.map_cons]
      cases hr : readItems rest <;> simp [Except.map, readValue, ih htl, hr]
    | dir es =>
      have htl : pureList tl = true := by
        simp only [pureList, pureFS, Bool.and_eq_true] at h; exact h.2
      simp only [List.cons_append, readItems, List.map_cons]
      cases hr : readItems rest <;> simp [Except.map, readValue, ih htl, hr]
    | badFile m => simp [pureList, pureFS] at h
    | badDir m => simp [pureList, pureFS] at h
    | badStat m => simp [pureList, pureFS] at h
    | special => simp [pureList, pureFS] at h

/-- Reading a pure entry list succeeds and yields each entry's value. -/
theorem readItems_pure (l : List (String × FSNode)) (h : pureList l = true) :
    readItems l = .ok (l.map fun p => (p.1, readValue p.2)) := by
  have := readItems_append_pure l [] h
  simpa [readItems, Except.map] using this

/-- A `statSync`-failure-free prefix forwards an error of the remainder. -/
theorem readItems_append_error (pre : List (String × FSNode))
    (rest : List (String × FSNode)) (m : String)
    (h : (pre.all fun x => !isStatFail x.2) = true)
    (hrest : readItems rest = .error m) :
    readItems (pre ++ rest) = .error m := by
  induction pre with
  | nil => simpa using hrest
  | cons hd tl ih =>
    obtain ⟨n, x⟩ := hd
    simp only [List.all_cons, Bool.and_eq_true] at h
    have htl := ih h.2
    cases x with
    | file c => simp [readItems, htl, Except.map]
    | dir es => simp [readItems, htl, Except.map]
    | badFile m2 => simp [readItems, htl, Except.map]
    | badDir m2 => simp [readItems, htl, Except.map]
    | badStat m2 => simp [isStatFail] at h
    | special => simpa [readItems] using htl

/-! ## Claim C4 — per-file failure isolation in the reader -/

/-- C4: in a directory tree in which exactly one file's read fails, the
reader returns the mapping whose entry for the failing file is the string
error marker `Error reading file: …` while every sibling entry (before and
after it in listing order) carries its correct value (`readValue`: the file
content, resp. the recursively-read subdirectory); and when listing the root
directory itself fails, the total function `readDirectoryStructure` returns
(rather than raising) the single top-level error-marker object. -/
theorem reader_isolates_file_read_failure
    (pre post : List (String × FSNode)) (f m : String)
    (h1 : pureList pre = true) (h2 : pureList post = true) :
    readDirectoryStructure (.dir (pre ++ (f, .badFile m) :: post)) =
      .obj ((pre.map fun p => (p.1, readValue p.2)) ++
        (f, .str ("Error reading file: " ++ m)) ::
        (post.map fun p => (p.1, readValue p.2))) ∧
    (∀ m2, readDirectoryStructure (.badDir m2) =
      .obj [("error", .str ("Error reading directory: " ++ m2))]) := by
  refine ⟨?_, fun m2 => rfl⟩
  have hpost := readItems_pure post h2
  have : readItems ((f, FSNode.badFile m) :: post) =
      .ok ((f, JSON.str ("Error reading file: " ++ m)) ::
        (post.map fun p => (p.1, readValue p.2))) := by
    simp [readItems, hpost, Except.map]
  have hall := readItems_append_pure pre ((f, FSNode.badFile m) :: post) h1
  rw [this] at hall
  simp [readDirectoryStructure, hall, Except.map]

/-- Witness for C4 at a concrete tree: a root with a healthy file, a failing
file and a healthy subdirectory. -/
theorem reader_isolates_file_read_failure_witness :
    readDirectoryStructure
      (.dir [("a.txt", .file "hi"), ("bad.txt", .badFile "EACCES"),
             ("sub", .dir [("b.txt", .file "yo")])]) =
      .obj [("a.txt", .str "hi"),
            ("bad.txt", .str "Error reading file: EACCES"),
            ("sub", .obj [("b.txt", .str "yo")])] ∧
    readDirectoryStructure (.badDir "ENOENT") =
      .obj [("error", .str "Error reading directory: ENOENT")] := by
  have h := reader_isolates_file_read_failure
    [("a.txt", FSNode.file "hi")] [("sub", FSNode.dir [("b.txt", FSNode.file "yo")])]
    "bad.txt" "EACCES" (by rfl) (by rfl)
  exact ⟨h.1.trans (by rfl), h.2 "ENOENT"⟩

/-! ## Claim C9 — a stat failure discards the whole directory -/

/-- C9: if `statSync` fails for one entry of a directory (and no earlier
sibling also has a stat failure), the exception escapes the `forEach` and is
caught by the directory-level handler: the whole directory collapses to a
single error-marker object, discarding every sibling already read — unlike
the per-file read-failure isolation of C4. -/
theorem reader_stat_failure_discards_siblings
    (pre post : List (String × FSNode)) (f m : String)
    (h : (pre.all fun x => !isStatFail x.2) = true) :
    readDirectoryStructure (.dir (pre ++ (f, .badStat m) :: post)) =
      .obj [("error", .str ("Error reading directory: " ++ m))] := by
  have herr : readItems ((f, FSNode.badStat m) :: post) = .error m := rfl
  have := readItems_append_error pre ((f, FSNode.badStat m) :: post) m h herr
  simp [readDirectoryStructure, this]

/-- Witness for C9: a healthy sibling read before the broken entry is
discarded from the result. -/
theorem reader_stat_failure_discards_siblings_witness :
    readDirectoryStructure
      (.dir [("a.txt", .file "hi"), ("broken", .badStat "ELOOP"),
             ("z.txt", .file "zz")]) =
      .obj [("error", .str "Error reading directory: ELOOP")] :=
  reader_stat_failure_discards_siblings
    [("a.txt", FSNode.file "hi")] [("z.txt", FSNode.file "zz")]
    "broken" "ELOOP" (by rfl)

/-! ## Claim C3 — the writer rejects malformed input before any write -/

/-- C3: on input that is not well-formed JSON, or whose parsed value has no
(truthy) `project_files` key, or whose `project_files` is not an array, the
writer exits with code 1 (printing the error in the `catch` branch) and the
output root is exactly as it was — the validation at lines 21-30 precedes
the root-directory creation at line 33 and every file write. -/
theorem writer_rejects_invalid_input (doc : InputDoc) (root0 : Option Dir)
    (h : doc = .invalidJSON ∨ doc = .noProjectFiles ∨ doc = .notArray) :
    (generateProject doc root0).root = root0 ∧
    (generateProject doc root0).exitCode = 1 := by
  rcases h with h | h | h <;> subst h <;> exact ⟨rfl, rfl⟩

/-- Witness for C3: a document without `project_files`, against a
nonexistent root — the root is still nonexistent and the exit code is 1. -/
theorem writer_rejects_invalid_input_witness :
    (generateProject .noProjectFiles none).root = none ∧
    (generateProject .noProjectFiles none).exitCode = 1 :=
  writer_rejects_invalid_input .noProjectFiles none (Or.inr (Or.inl rfl))

/-! ## Claim C5 — invalid entries are skipped, the rest unaffected -/

/-- C5: an entry that is missing a name (or has an empty one) or whose
content is undefined is recorded as skipped (the warning at line 41), causes
no filesystem write, and the remaining entries are processed exactly as if
the invalid entry were not present. -/
theorem writer_skips_invalid_entry (e : RawEntry) (rest : List RawEntry)
    (d : Dir) (h : validEntry e = false) :
    processEntries (e :: rest) d =
      ⟨(processEntries rest d).dir, e :: (processEntries rest d).skipped,
       (processEntries rest d).failed⟩ := by
  simp [processEntries, h]

/-- Witness for C5: an entry with no name is skipped and the following
entry is still written. -/
theorem writer_skips_invalid_entry_witness :
    processEntries [⟨none, some "x"⟩, ⟨some "ok.txt", some "hi"⟩] [] =
      ⟨[("ok.txt", PNode.file "hi")], [⟨none, some "x"⟩], false⟩ :=
  (writer_skips_invalid_entry ⟨none, some "x"⟩ [⟨some "ok.txt", some "hi"⟩]
    [] rfl).trans rfl

/-! ## Claim C10 — empty-string name vs empty-string content -/

/-- C10: an entry whose `name` is present but the empty string falls into
the same `!file.name` guard as a missing name: it is skipped with a warning
and nothing is written for it, whatever its content and whatever follows;
whereas an entry with an empty-string `content` is written normally (here:
`f` is created holding the empty string). -/
theorem writer_empty_name_skipped_empty_content_written :
    (∀ (c : String) (rest : List RawEntry) (d : Dir),
      processEntries (⟨some "", some c⟩ :: rest) d =
        ⟨(processEntries rest d).dir,
         ⟨some "", some c⟩ :: (processEntries rest d).skipped,
         (processEntries rest d).failed⟩) ∧
    processEntries [⟨some "f", some ""⟩] [] =
      ⟨[("f", PNode.file "")], [], false⟩ := by
  refine ⟨fun c rest d => ?_, rfl⟩
  simp [processEntries, validEntry]

/-! ## Claim C1 — the reader CLI destroys and replaces the root -/

/-- Counterexample for C1: invoked on a root containing `orig.txt`, the
reader CLI neither leaves the root unchanged (it now holds the dummy
project) nor prints a mapping representing the original contents. -/
theorem readerCLI_not_preserving_cex :
    (readerCLI true (.dir [("orig.txt", .file "keep")])).finalRoot ≠
      some (.dir [("orig.txt", .file "keep")]) ∧
    (readerCLI true (.dir [("orig.txt", .file "keep")])).printed ≠
      some (readDirectoryStructure (.dir [("orig.txt", .file "keep")])) := by
  constructor
  · intro h
    exact absurd (congrArg (Option.map FSNode.topNames) h) (by decide)
  · intro h
    exact absurd (congrArg (Option.map JSON.keys) h) (by decide)

/-- C1 (amended): for every root path given on the command line, the reader
CLI deletes that directory and recreates it as the fixed dummy project
(`createDummyProject` runs unconditionally at line 190), and the nested
mapping printed to stdout represents exactly the regular files and
subdirectories of that dummy project — i.e. of what is under the root when
the tool exits, not of what was there when it was invoked. -/
theorem readerCLI_replaces_root_with_dummy (root : FSNode) :
    (readerCLI true root).finalRoot = some dummyProject ∧
    (readerCLI true root).printed = some (readDirectoryStructure dummyProject) ∧
    readDirectoryStructure dummyProject =
      .obj [("src", .obj
              [("index.js", .str "console.log(\"Hello, World!\");"),
               ("utils.js", .str "const add = (a, b) => a + b;")]),
            ("test", .obj
              [("utils.test.js", .str "// Test cases for utils.js")]),
            ("package.json", .str
              "\x7b\n  \"name\": \"dummy-project\",\n  \"version\": \"1.0.0\"\n\x7d")] :=
  ⟨rfl, rfl, rfl⟩

/-! ## Claim C8 — reader CLI exit codes -/

/-- Counterexample for C8: with the argument present but the root directory
unlistable, a top-level read error does occur (the first read returns the
error marker), yet the CLI exits with code 0, not 1 — `readDirectoryStructure`
catches the error instead of letting it abort the process. -/
theorem readerCLI_exit_zero_on_unreadable_root_cex :
    (readerCLI true (.badDir "EACCES")).exitCode = 0 ∧
    (readerCLI true (.badDir "EACCES")).firstRead =
      some (.obj [("error", .str "Error reading directory: EACCES")]) :=
  ⟨rfl, rfl⟩

/-- C8 (amended): the reader CLI exits with code 1 (and an error message)
exactly when the directory argument is missing; when the argument is present
it exits 0 even if the root cannot be listed, the top-level read error being
degraded to an error-marker object in the read result. -/
theorem readerCLI_exit_codes (root : FSNode) (m : String) :
    (readerCLI false root).exitCode = 1 ∧
    (readerCLI true root).exitCode = 0 ∧
    (readerCLI true (.badDir m)).firstRead =
      some (.obj [("error", .str ("Error reading directory: " ++ m))]) :=
  ⟨rfl, rfl, rfl⟩

/-! ## Association-list lemmas -/

theorem lookupE_insertE (d : Dir) (n k : String) (v : PNode) :
    lookupE (insertE d n v) k = if k = n then some v else lookupE d k := by
  induction d with
  | nil =>
    by_cases h : k = n
    · subst h; simp [insertE, lookupE]
    · rw [if_neg h]
      simp only [insertE, lookupE]
      rw [if_neg (fun hh => h hh.symm)]
  | cons hd tl ih =>
    obtain ⟨a, w⟩ := hd
    by_cases han : a = n
    · subst han
      simp only [insertE, if_pos rfl, lookupE]
      by_cases hka : k = a
      · rw [if_pos hka, if_pos hka.symm]
      · rw [if_neg hka, if_neg (fun hh => hka hh.symm), if_neg (fun hh => hka hh.symm)]
    · simp only [insertE, if_neg han, lookupE]
      by_cases hak : a = k
      · have hkn : ¬(k = n) := fun hh => han (hak.trans hh)
        rw [if_pos hak, if_neg hkn, if_pos hak]
      · rw [if_neg hak, ih]
        by_cases hkn : k = n
        · rw [if_pos hkn, if_pos hkn]
        · rw [if_neg hkn, if_neg hkn, if_neg hak]

theorem hasKey_insertE (d : Dir) (n k : String) (v : PNode) :
    hasKey (insertE d n v) k = (k = n || hasKey d k) := by
  by_cases h : k = n <;> simp [hasKey, lookupE_insertE, h]

theorem noDupN_lookupE (d : Dir) (s : String) (x : PNode)
    (hd : noDupL d = true) (h : lookupE d s = some x) : noDupN x = true := by
  induction d with
  | nil => simp [lookupE] at h
  | cons hd2 tl ih =>
    obtain ⟨a, w⟩ := hd2
    simp only [noDupL, Bool.and_eq_true] at hd
    by_cases has : a = s
    · subst has
      simp [lookupE] at h
      exact h ▸ hd.1.2
    · simp [lookupE, has] at h
      exact ih hd.2 h

theorem noDupL_insertE (d : Dir) (n : String) (v : PNode)
    (hd : noDupL d = true) (hv : noDupN v = true) :
    noDupL (insertE d n v) = true := by
  induction d with
  | nil => simp [insertE, noDupL, hasKey, lookupE, hv]
  | cons hd2 tl ih =>
    obtain ⟨a, w⟩ := hd2
    simp only [noDupL, Bool.and_eq_true] at hd
    by_cases han : a = n
    · subst han
      simp [insertE, noDupL, hd.1.1, hd.2, hv]
    · simp only [insertE, han, if_false, noDupL, Bool.and_eq_true]
      refine ⟨⟨?_, hd.1.2⟩, ih hd.2⟩
      have := hasKey_insertE tl n a v
      simp only [hasKey] at this ⊢
      rw [this]
      simp only [Bool.not_or, Bool.and_eq_true, Bool.not_eq_true']
      exact ⟨by simp [han], by simpa [hasKey] using hd.1.1⟩

/-! ## Path lemmas -/

theorem getPath_isSome_of_prefix (q : List String) :
    ∀ (d : Dir) (p : List String), q <+: p →
      (getPath d p).isSome = true → (getPath d q).isSome = true := by
  induction q with
  | nil => intro d p _ _; simp [getPath]
  | cons s q' ih =>
    intro d p hpq h
    obtain ⟨t, rfl⟩ := hpq
    rw [List.cons_append] at h
    rw [show getPath d (s :: q') = getPath d (s :: q') from rfl]
    cases hl : lookupE d s with
    | none => rw [getPath, hl] at h; simp at h
    | some x =>
      cases x with
      | file c =>
        rw [getPath, hl] at h ⊢
        by_cases hq : q' ++ t = []
        · have hq' : q' = [] := by
            cases q' with
            | nil => rfl
            | cons a b => simp at hq
          simp [hq']
        · simp [hq] at h
      | dir sub =>
        rw [getPath, hl] at h ⊢
        exact ih sub (q' ++ t) (List.prefix_append q' t) h

/-- For a nonempty path, the prefixes of `dropLast` are exactly the proper
prefixes. -/
theorem prefix_dropLast_iff (p q : List String) (hp : p ≠ []) :
    q <+: p.dropLast ↔ (q <+: p ∧ q ≠ p) := by
  constructor
  · intro h
    obtain ⟨t, ht⟩ := h
    have hd := List.dropLast_append_getLast hp
    refine ⟨⟨t ++ [p.getLast hp], by rw [← List.append_assoc, ht, hd]⟩, ?_⟩
    intro hq
    subst hq
    have h1 : q.length ≤ q.dropLast.length := by
      rw [← ht]; simp
    have h2 : q.dropLast.length < q.length := by
      rw [List.length_dropLast]
      have : q.length ≠ 0 := by simpa using hp
      omega
    omega
  · rintro ⟨⟨t, ht⟩, hne⟩
    have htne : t ≠ [] := by
      rintro rfl
      exact hne (by simpa using ht)
    refine ⟨t.dropLast, ?_⟩
    have := List.dropLast_append_getLast htne
    calc q ++ t.dropLast = (q ++ (t.dropLast ++ [t.getLast htne])).dropLast := by
          rw [← List.append_assoc]; simp
      _ = p.dropLast := by rw [this, ht]

/-- Unfolding equation for `getPath` on a nonempty path. -/
theorem getPath_cons (d : Dir) (s : String) (q : List String) :
    getPath d (s :: q) =
      (match lookupE d s with
       | none => none
       | some (.file c) => if q = [] then some (.file c) else none
       | some (.dir sub) => getPath sub q) := rfl

theorem getPath_cons_none (d : Dir) (s : String) (q : List String)
    (hl : lookupE d s = none) : getPath d (s :: q) = none := by
  rw [getPath_cons, hl]

theorem getPath_cons_file (d : Dir) (s : String) (q : List String) (c : String)
    (hl : lookupE d s = some (.file c)) :
    getPath d (s :: q) = if q = [] then some (.file c) else none := by
  rw [getPath_cons, hl]

theorem getPath_cons_dir (d : Dir) (s : String) (q : List String) (sub : Dir)
    (hl : lookupE d s = some (.dir sub)) :
    getPath d (s :: q) = getPath sub q := by
  rw [getPath_cons, hl]

theorem getPath_nil_empty (q : List String) (hq : q ≠ []) :
    getPath [] q = none := by
  cases q with
  | nil => exact absurd rfl hq
  | cons u q' => exact getPath_cons_none [] u q' rfl

theorem isDirAt_nil (d : Dir) : isDirAt d [] = true := rfl

theorem isDirAt_iff (d : Dir) (p : List String) :
    isDirAt d p = true ↔ ∃ sub, getPath d p = some (.dir sub) := by
  rw [isDirAt]
  cases h : getPath d p with
  | none => simp
  | some x => cases x <;> simp

theorem isFileAt_iff (d : Dir) (p : List String) :
    isFileAt d p = true ↔ ∃ c, getPath d p = some (.file c) := by
  rw [isFileAt]
  cases h : getPath d p with
  | none => simp
  | some x => cases x <;> simp

/-! ## Unfolding equations for `mkdirRec` and `writeFile` -/

theorem mkdirRec_cons_dir (d : Dir) (s : String) (rest : List String) (sub : Dir)
    (hl : lookupE d s = some (.dir sub)) :
    mkdirRec d (s :: rest) =
      (mkdirRec sub rest).map (fun sub2 => insertE d s (.dir sub2)) := by
  rw [mkdirRec, hl]

theorem mkdirRec_cons_file (d : Dir) (s : String) (rest : List String) (c : String)
    (hl : lookupE d s = some (.file c)) :
    mkdirRec d (s :: rest) = none := by
  rw [mkdirRec, hl]

theorem mkdirRec_cons_none (d : Dir) (s : String) (rest : List String)
    (hl : lookupE d s = none) :
    mkdirRec d (s :: rest) =
      (mkdirRec [] rest).map (fun sub2 => insertE d s (.dir sub2)) := by
  rw [mkdirRec, hl]

theorem writeFile_single (d : Dir) (s : String) (c : String) :
    writeFile d [s] c =
      (match lookupE d s with
       | some (.dir _) => none
       | _ => some (insertE d s (.file c))) := rfl

theorem writeFile_cons_dir (d : Dir) (s r : String) (rest : List String)
    (c : String) (sub : Dir) (hl : lookupE d s = some (.dir sub)) :
    writeFile d (s :: r :: rest) c =
      (writeFile sub (r :: rest) c).map (fun sub2 => insertE d s (.dir sub2)) := by
  rw [writeFile, hl]
  simp

theorem writeFile_cons_file (d : Dir) (s r : String) (rest : List String)
    (c c0 : String) (hl : lookupE d s = some (.file c0)) :
    writeFile d (s :: r :: rest) c = none := by
  rw [writeFile, hl]
  simp

theorem writeFile_cons_none (d : Dir) (s r : String) (rest : List String)
    (c : String) (hl : lookupE d s = none) :
    writeFile d (s :: r :: rest) c = none := by
  rw [writeFile, hl]
  simp

/-! ## Specification of `mkdirSync(..., { recursive: true })` -/

/-- A successful recursive directory creation: (i) every prefix of the path
is a directory afterwards, (ii) nothing outside the prefixes of the path
changes, (iii) beforehand every prefix was absent or already a directory. -/
theorem mkdirRec_spec (p : List String) : ∀ (d d' : Dir),
    mkdirRec d p = some d' →
    (∀ q, q <+: p → isDirAt d' q = true) ∧
    (∀ q, ¬(q <+: p) → getPath d' q = getPath d q) ∧
    (∀ q, q <+: p → getPath d q = none ∨ isDirAt d q = true) := by
  induction p with
  | nil =>
    intro d d' h
    simp only [mkdirRec, Option.some.injEq] at h
    subst h
    refine ⟨?_, fun q _ => rfl, ?_⟩
    · intro q hq
      rw [List.prefix_nil.mp hq]
      exact isDirAt_nil d
    · intro q hq
      rw [List.prefix_nil.mp hq]
      right; exact isDirAt_nil d
  | cons s rest ih =>
    intro d d' h
    cases hl : lookupE d s with
    | none =>
      rw [mkdirRec_cons_none d s rest hl] at h
      obtain ⟨sub2, hm, heq⟩ := Option.map_eq_some'.mp h
      subst heq
      obtain ⟨ih1, ih2, _⟩ := ih [] sub2 hm
      refine ⟨?_, ?_, ?_⟩
      · intro q hq
        cases q with
        | nil => exact isDirAt_nil _
        | cons t q' =>
          obtain ⟨rfl, hq'⟩ := (List.cons_prefix_cons).mp hq
          rw [isDirAt, getPath_cons_dir _ t q' sub2 (by rw [lookupE_insertE, if_pos rfl])]
          exact ih1 q' hq'
      · intro q hq
        cases q with
        | nil => exact absurd (List.nil_prefix) hq
        | cons t q' =>
          by_cases hts : t = s
          · subst hts
            have hq' : ¬(q' <+: rest) := fun hh =>
              hq (List.cons_prefix_cons.mpr ⟨rfl, hh⟩)
            have hq'ne : q' ≠ [] := fun hh => hq' (hh ▸ List.nil_prefix)
            rw [getPath_cons_dir _ t q' sub2 (by rw [lookupE_insertE, if_pos rfl]),
              getPath_cons_none d t q' hl, ih2 q' hq', getPath_nil_empty q' hq'ne]
          · rw [getPath_cons, getPath_cons, lookupE_insertE, if_neg hts]
      · intro q hq
        cases q with
        | nil => right; exact isDirAt_nil d
        | cons t q' =>
          obtain ⟨rfl, _⟩ := (List.cons_prefix_cons).mp hq
          left; exact getPath_cons_none d t q' hl
    | some x =>
      cases x with
      | file c => rw [mkdirRec_cons_file d s rest c hl] at h; exact absurd h (by simp)
      | dir sub =>
        rw [mkdirRec_cons_dir d s rest sub hl] at h
        obtain ⟨sub2, hm, heq⟩ := Option.map_eq_some'.mp h
        subst heq
        obtain ⟨ih1, ih2, ih3⟩ := ih sub sub2 hm
        refine ⟨?_, ?_, ?_⟩
        · intro q hq
          cases q with
          | nil => exact isDirAt_nil _
          | cons t q' =>
            obtain ⟨rfl, hq'⟩ := (List.cons_prefix_cons).mp hq
            rw [isDirAt, getPath_cons_dir _ t q' sub2 (by rw [lookupE_insertE, if_pos rfl])]
            exact ih1 q' hq'
        · intro q hq
          cases q with
          | nil => exact absurd (List.nil_prefix) hq
          | cons t q' =>
            by_cases hts : t = s
            · subst hts
              have hq' : ¬(q' <+: rest) := fun hh =>
                hq (List.cons_prefix_cons.mpr ⟨rfl, hh⟩)
              rw [getPath_cons_dir _ t q' sub2 (by rw [lookupE_insertE, if_pos rfl]),
                getPath_cons_dir d t q' sub hl]
              exact ih2 q' hq'
            · rw [getPath_cons, getPath_cons, lookupE_insertE, if_neg hts]
        · intro q hq
          cases q with
          | nil => right; exact isDirAt_nil d
          | cons t q' =>
            obtain ⟨rfl, hq'⟩ := (List.cons_prefix_cons).mp hq
            rcases ih3 q' hq' with hnone | hdir
            · left; rw [getPath_cons_dir d t q' sub hl]; exact hnone
            · right; rw [isDirAt, getPath_cons_dir d t q' sub hl]; exact hdir

/-- Recursive directory creation preserves the unique-names invariant. -/
theorem mkdirRec_noDup (p : List String) : ∀ (d d' : Dir),
    mkdirRec d p = some d' → noDupL d = true → noDupL d' = true := by
  induction p with
  | nil =>
    intro d d' h hd
    simp only [mkdirRec, Option.some.injEq] at h
    exact h ▸ hd
  | cons s rest ih =>
    intro d d' h hd
    cases hl : lookupE d s with
    | none =>
      rw [mkdirRec_cons_none d s rest hl] at h
      obtain ⟨sub2, hm, heq⟩ := Option.map_eq_some'.mp h
      subst heq
      exact noDupL_insertE d s _ hd (show noDupL sub2 = true from ih [] sub2 hm rfl)
    | some x =>
      cases x with
      | file c => rw [mkdirRec_cons_file d s rest c hl] at h; exact absurd h (by simp)
      | dir sub =>
        rw [mkdirRec_cons_dir d s rest sub hl] at h
        obtain ⟨sub2, hm, heq⟩ := Option.map_eq_some'.mp h
        subst heq
        have hsub : noDupL sub = true := noDupN_lookupE d s _ hd hl
        exact noDupL_insertE d s _ hd
          (show noDupL sub2 = true from ih sub sub2 hm hsub)

/-- Recursive directory creation succeeds when every prefix of the path is
absent or already a directory. -/
theorem mkdirRec_isSome (p : List String) : ∀ (d : Dir),
    (∀ q, q <+: p → getPath d q = none ∨ isDirAt d q = true) →
    (mkdirRec d p).isSome = true := by
  induction p with
  | nil => intro d _; simp [mkdirRec]
  | cons s rest ih =>
    intro d h
    cases hl : lookupE d s with
    | none =>
      rw [mkdirRec_cons_none d s rest hl]
      have : (mkdirRec [] rest).isSome = true := by
        refine ih [] (fun q hq => ?_)
        cases q with
        | nil => right; exact isDirAt_nil []
        | cons u q'' => left; exact getPath_cons_none [] u q'' rfl
      simpa using this
    | some x =>
      cases x with
      | file c =>
        have h1 := h [s] (List.cons_prefix_cons.mpr ⟨rfl, List.nil_prefix⟩)
        rw [getPath_cons_file d s [] c hl] at h1
        rcases h1 with h1 | h1
        · simp at h1
        · rw [isDirAt, getPath_cons_file d s [] c hl] at h1; simp at h1
      | dir sub =>
        rw [mkdirRec_cons_dir d s rest sub hl]
        have : (mkdirRec sub rest).isSome = true := by
          refine ih sub (fun q hq => ?_)
          have h1 := h (s :: q) (List.cons_prefix_cons.mpr ⟨rfl, hq⟩)
          rw [getPath_cons_dir d s q sub hl] at h1
          rcases h1 with h1 | h1
          · left; exact h1
          · right; rw [isDirAt, getPath_cons_dir d s q sub hl] at h1; exact h1
        simpa using this

/-! ## Specification of `writeFileSync` -/

/-- A successful file write: the target now holds exactly the new content,
nothing outside the prefixes of the path changes, every proper prefix was
and remains a directory, and the target was not a directory (so an existing
file is overwritten). -/
theorem writeFile_spec (p : List String) : ∀ (d d' : Dir) (c : String),
    writeFile d p c = some d' →
    getPath d' p = some (.file c) ∧
    (∀ q, ¬(q <+: p) → getPath d' q = getPath d q) ∧
    (∀ q, q <+: p → q ≠ p → isDirAt d q = true ∧ isDirAt d' q = true) ∧
    isDirAt d p = false := by
  induction p with
  | nil => intro d d' c h; rw [writeFile] at h; exact absurd h (by simp)
  | cons s rest ih =>
    intro d d' c h
    cases rest with
    | nil =>
      rw [writeFile_single] at h
      have hins : d' = insertE d s (.file c) ∧ isDirAt d [s] = false := by
        cases hl : lookupE d s with
        | none =>
          rw [hl] at h
          simp only [Option.some.injEq] at h
          exact ⟨h.symm, by rw [isDirAt, getPath_cons_none d s [] hl]⟩
        | some x =>
          cases x with
          | file c0 =>
            rw [hl] at h
            simp only [Option.some.injEq] at h
            refine ⟨h.symm, ?_⟩
            rw [isDirAt, getPath_cons_file d s [] c0 hl]
            simp
          | dir sub => rw [hl] at h; exact absurd h (by simp)
      obtain ⟨rfl, htar⟩ := hins
      refine ⟨?_, ?_, ?_, htar⟩
      · rw [getPath_cons_file _ s [] c (by rw [lookupE_insertE, if_pos rfl])]
        simp
      · intro q hq
        cases q with
        | nil => exact absurd (List.nil_prefix) hq
        | cons t q' =>
          by_cases hts : t = s
          · subst hts
            have hq' : q' ≠ [] := by
              rintro rfl
              exact hq (List.prefix_refl _)
            rw [getPath_cons_file _ t q' c (by rw [lookupE_insertE, if_pos rfl]),
              if_neg hq']
            cases hl : lookupE d t with
            | none => rw [getPath_cons_none d t q' hl]
            | some x =>
              cases x with
              | file c0 => rw [getPath_cons_file d t q' c0 hl, if_neg hq']
              | dir sub =>
                have hcontra : isDirAt d [t] = true := (isDirAt_iff d [t]).mpr
                  ⟨sub, by rw [getPath_cons_dir d t [] sub hl]; exact rfl⟩
                rw [hcontra] at htar
                exact absurd htar (by simp)
          · rw [getPath_cons, getPath_cons, lookupE_insertE, if_neg hts]
      · intro q hq hqne
        have : q = [] := by
          cases q with
          | nil => rfl
          | cons t q' =>
            obtain ⟨rfl, hq'⟩ := List.cons_prefix_cons.mp hq
            rw [List.prefix_nil.mp hq'] at hqne
            exact absurd rfl hqne
        subst this
        exact ⟨isDirAt_nil d, isDirAt_nil _⟩
    | cons r rest' =>
      cases hl : lookupE d s with
      | none => rw [writeFile_cons_none d s r rest' c hl] at h; exact absurd h (by simp)
      | some x =>
        cases x with
        | file c0 =>
          rw [writeFile_cons_file d s r rest' c c0 hl] at h
          exact absurd h (by simp)
        | dir sub =>
          rw [writeFile_cons_dir d s r rest' c sub hl] at h
          obtain ⟨sub2, hm, heq⟩ := Option.map_eq_some'.mp h
          subst heq
          obtain ⟨ih1, ih2, ih3, ih4⟩ := ih sub sub2 c hm
          have hlook : lookupE (insertE d s (.dir sub2)) s = some (.dir sub2) := by
            rw [lookupE_insertE, if_pos rfl]
          refine ⟨?_, ?_, ?_, ?_⟩
          · rw [getPath_cons_dir _ s (r :: rest') sub2 hlook]; exact ih1
          · intro q hq
            cases q with
            | nil => exact absurd (List.nil_prefix) hq
            | cons t q' =>
              by_cases hts : t = s
              · subst hts
                have hq' : ¬(q' <+: r :: rest') := fun hh =>
                  hq (List.cons_prefix_cons.mpr ⟨rfl, hh⟩)
                rw [getPath_cons_dir _ t q' sub2 hlook, getPath_cons_dir d t q' sub hl]
                exact ih2 q' hq'
              · rw [getPath_cons, getPath_cons, lookupE_insertE, if_neg hts]
          · intro q hq hqne
            cases q with
            | nil => exact ⟨isDirAt_nil d, isDirAt_nil _⟩
            | cons t q' =>
              obtain ⟨rfl, hq'⟩ := List.cons_prefix_cons.mp hq
              have hq'ne : q' ≠ r :: rest' := fun hh => hqne (by rw [hh])
              obtain ⟨g1, g2⟩ := ih3 q' hq' hq'ne
              constructor
              · rw [isDirAt, getPath_cons_dir d t q' sub hl]; exact g1
              · rw [isDirAt, getPath_cons_dir _ t q' sub2 hlook]; exact g2
          · rw [isDirAt, getPath_cons_dir d s (r :: rest') sub hl]; exact ih4

/-- A file write preserves the unique-names invariant. -/
theorem writeFile_noDup (p : List String) : ∀ (d d' : Dir) (c : String),
    writeFile d p c = some d' → noDupL d = true → noDupL d' = true := by
  induction p with
  | nil => intro d d' c h _; rw [writeFile] at h; exact absurd h (by simp)
  | cons s rest ih =>
    intro d d' c h hd
    cases rest with
    | nil =>
      have : d' = insertE d s (.file c) := by
        rw [writeFile_single] at h
        cases hl : lookupE d s with
        | none => rw [hl] at h; simpa using h.symm
        | some x =>
          cases x with
          | file c0 => rw [hl] at h; simpa using h.symm
          | dir sub => rw [hl] at h; exact absurd h (by simp)
      subst this
      exact noDupL_insertE d s _ hd rfl
    | cons r rest' =>
      cases hl : lookupE d s with
      | none => rw [writeFile_cons_none d s r rest' c hl] at h; exact absurd h (by simp)
      | some x =>
        cases x with
        | file c0 =>
          rw [writeFile_cons_file d s r rest' c c0 hl] at h
          exact absurd h (by simp)
        | dir sub =>
          rw [writeFile_cons_dir d s r rest' c sub hl] at h
          obtain ⟨sub2, hm, heq⟩ := Option.map_eq_some'.mp h
          subst heq
          have hsub : noDupL sub = true := noDupN_lookupE d s _ hd hl
          exact noDupL_insertE d s _ hd
            (show noDupL sub2 = true from ih sub sub2 c hm hsub)

/-- A file write succeeds when the path is nonempty, every proper prefix is
a directory and the target is not a directory. -/
theorem writeFile_isSome (p : List String) : ∀ (d : Dir) (c : String),
    p ≠ [] →
    (∀ q, q <+: p → q ≠ p → isDirAt d q = true) →
    isDirAt d p = false →
    (writeFile d p c).isSome = true := by
  induction p with
  | nil => intro d c hp _ _; exact absurd rfl hp
  | cons s rest ih =>
    intro d c _ hpre htar
    cases rest with
    | nil =>
      rw [writeFile_single]
      cases hl : lookupE d s with
      | none => simp
      | some x =>
        cases x with
        | file c0 => simp
        | dir sub =>
          have hcontra : isDirAt d [s] = true := (isDirAt_iff d [s]).mpr
            ⟨sub, by rw [getPath_cons_dir d s [] sub hl]; exact rfl⟩
          rw [hcontra] at htar
          exact absurd htar (by simp)
    | cons r rest' =>
      have hdirS : isDirAt d [s] = true :=
        hpre [s] (List.cons_prefix_cons.mpr ⟨rfl, List.nil_prefix⟩) (by simp)
      obtain ⟨sub, hsub⟩ := (isDirAt_iff d [s]).mp hdirS
      have hl : lookupE d s = some (.dir sub) := by
        cases hl2 : lookupE d s with
        | none =>
          rw [getPath_cons_none d s [] hl2] at hsub
          exact absurd hsub (by simp)
        | some x =>
          cases x with
          | file c0 =>
            rw [getPath_cons_file d s [] c0 hl2] at hsub
            simp at hsub
          | dir sub2 =>
            rw [getPath_cons_dir d s [] sub2 hl2,
              show getPath sub2 [] = some (PNode.dir sub2) from rfl] at hsub
            injection hsub with h4
            injection h4 with h5
            rw [h5]
      rw [writeFile_cons_dir d s r rest' c sub hl]
      have : (writeFile sub (r :: rest') c).isSome = true := by
        refine ih sub c (by simp) ?_ ?_
        · intro q hq hqne
          have h1 := hpre (s :: q) (List.cons_prefix_cons.mpr ⟨rfl, hq⟩)
            (fun hh => hqne (by injection hh))
          rw [isDirAt, getPath_cons_dir d s q sub hl] at h1
          exact h1
        · rw [isDirAt, getPath_cons_dir d s (r :: rest') sub hl] at htar
          exact htar
      simpa using this

/-! ## Specification of a single entry write (`writeEntry`) -/

theorem writeFile_nil (d : Dir) (c : String) : writeFile d [] c = none := rfl

/-- Kinds are exclusive: a path is not both a directory and a file. -/
theorem not_file_of_dir (d : Dir) (q : List String)
    (hd : isDirAt d q = true) (hf : isFileAt d q = true) : False := by
  obtain ⟨sub, h1⟩ := (isDirAt_iff d q).mp hd
  obtain ⟨c, h2⟩ := (isFileAt_iff d q).mp hf
  rw [h1] at h2
  simp at h2

theorem writeEntry_mk1 (d : Dir) (p : List String) (c : String)
    (hex : existsPath d p.dropLast = true) :
    writeEntry d p c =
      (match writeFile d p c with
       | none => (d, true)
       | some d3 => (d3, false)) := by
  rw [writeEntry, if_pos hex]

theorem writeEntry_mk2 (d : Dir) (p : List String) (c : String)
    (hex : existsPath d p.dropLast = false) :
    writeEntry d p c =
      (match mkdirRec d p.dropLast with
       | none => (d, true)
       | some d2 =>
         match writeFile d2 p c with
         | none => (d2, true)
         | some d3 => (d3, false)) := by
  rw [writeEntry, if_neg (by simp [hex])]

/-- Case analysis of a successful entry write. -/
theorem writeEntry_succ_cases (d : Dir) (p : List String) (c : String) (d' : Dir)
    (h : writeEntry d p c = (d', false)) :
    (existsPath d p.dropLast = true ∧ writeFile d p c = some d') ∨
    (existsPath d p.dropLast = false ∧
      ∃ d2, mkdirRec d p.dropLast = some d2 ∧ writeFile d2 p c = some d') := by
  by_cases hex : existsPath d p.dropLast = true
  · rw [writeEntry_mk1 d p c hex] at h
    left
    refine ⟨hex, ?_⟩
    cases hw : writeFile d p c with
    | none =>
      rw [hw] at h
      have h2 : ((d, true) : Dir × Bool) = (d', false) := h
      exact absurd (congrArg Prod.snd h2) (by simp)
    | some d3 =>
      rw [hw] at h
      have h2 : ((d3, false) : Dir × Bool) = (d', false) := h
      have h3 : d3 = d' := congrArg Prod.fst h2
      rw [h3]
  · have hex2 : existsPath d p.dropLast = false := by
      cases hb : existsPath d p.dropLast
      · rfl
      · exact absurd hb hex
    rw [writeEntry_mk2 d p c hex2] at h
    right
    refine ⟨hex2, ?_⟩
    cases hm : mkdirRec d p.dropLast with
    | none =>
      rw [hm] at h
      have h2 : ((d, true) : Dir × Bool) = (d', false) := h
      exact absurd (congrArg Prod.snd h2) (by simp)
    | some d2 =>
      rw [hm] at h
      have h' : (match writeFile d2 p c with
          | none => ((d2 : Dir), true)
          | some d3 => (d3, false)) = (d', false) := h
      refine ⟨d2, rfl, ?_⟩
      cases hw : writeFile d2 p c with
      | none =>
        rw [hw] at h'
        have h2 : ((d2, true) : Dir × Bool) = (d', false) := h'
        exact absurd (congrArg Prod.snd h2) (by simp)
      | some d3 =>
        rw [hw] at h'
        have h2 : ((d3, false) : Dir × Bool) = (d', false) := h'
        have h3 : d3 = d' := congrArg Prod.fst h2
        rw [h3]

/-- Case analysis of a failed entry write. -/
theorem writeEntry_fail_cases (d : Dir) (p : List String) (c : String) (d' : Dir)
    (h : writeEntry d p c = (d', true)) :
    (existsPath d p.dropLast = true ∧ d' = d ∧ writeFile d p c = none) ∨
    (existsPath d p.dropLast = false ∧ mkdirRec d p.dropLast = none ∧ d' = d) ∨
    (existsPath d p.dropLast = false ∧ mkdirRec d p.dropLast = some d' ∧
      writeFile d' p c = none) := by
  by_cases hex : existsPath d p.dropLast = true
  · rw [writeEntry_mk1 d p c hex] at h
    left
    refine ⟨hex, ?_⟩
    cases hw : writeFile d p c with
    | none =>
      rw [hw] at h
      have h2 : ((d, true) : Dir × Bool) = (d', true) := h
      exact ⟨(congrArg Prod.fst h2).symm, rfl⟩
    | some d3 =>
      rw [hw] at h
      have h2 : ((d3, false) : Dir × Bool) = (d', true) := h
      exact absurd (congrArg Prod.snd h2) (by simp)
  · have hex2 : existsPath d p.dropLast = false := by
      cases hb : existsPath d p.dropLast
      · rfl
      · exact absurd hb hex
    rw [writeEntry_mk2 d p c hex2] at h
    cases hm : mkdirRec d p.dropLast with
    | none =>
      rw [hm] at h
      have h2 : ((d, true) : Dir × Bool) = (d', true) := h
      exact Or.inr (Or.inl ⟨hex2, rfl, (congrArg Prod.fst h2).symm⟩)
    | some d2 =>
      rw [hm] at h
      have h' : (match writeFile d2 p c with
          | none => ((d2 : Dir), true)
          | some d3 => (d3, false)) = (d', true) := h
      cases hw : writeFile d2 p c with
      | none =>
        rw [hw] at h'
        have h2 : ((d2, true) : Dir × Bool) = (d', true) := h'
        have hd2 : d2 = d' := congrArg Prod.fst h2
        subst hd2
        exact Or.inr (Or.inr ⟨hex2, rfl, hw⟩)
      | some d3 =>
        rw [hw] at h'
        have h2 : ((d3, false) : Dir × Bool) = (d', true) := h'
        exact absurd (congrArg Prod.snd h2) (by simp)

theorem writeEntry_of_exists_none (d : Dir) (p : List String) (c : String)
    (hex : existsPath d p.dropLast = true) (hw : writeFile d p c = none) :
    writeEntry d p c = (d, true) := by
  rw [writeEntry_mk1 d p c hex, hw]

theorem writeEntry_of_exists_some (d : Dir) (p : List String) (c : String)
    (d3 : Dir) (hex : existsPath d p.dropLast = true)
    (hw : writeFile d p c = some d3) :
    writeEntry d p c = (d3, false) := by
  rw [writeEntry_mk1 d p c hex, hw]

/-- A successful entry write: the target holds the content, nothing outside
the path's prefixes changes, every proper prefix is a directory afterwards
(and was, in the write input, a directory or absent), the path is nonempty,
and the target was not a directory in the write input. -/
theorem writeEntry_succ (d : Dir) (p : List String) (c : String) (d' : Dir)
    (h : writeEntry d p c = (d', false)) :
    getPath d' p = some (.file c) ∧
    (∀ q, ¬(q <+: p) → getPath d' q = getPath d q) ∧
    (∀ q, q <+: p → q ≠ p → isDirAt d' q = true) ∧
    p ≠ [] ∧
    (∀ q, q <+: p → q ≠ p → getPath d q = none ∨ isDirAt d q = true) ∧
    isDirAt d p = false := by
  have hpne : p ≠ [] := by
    rintro rfl
    rcases writeEntry_succ_cases d [] c d' h with ⟨_, hw⟩ | ⟨_, d2, _, hw⟩ <;>
      exact absurd hw (by rw [writeFile_nil]; simp)
  rcases writeEntry_succ_cases d p c d' h with ⟨hex, hw⟩ | ⟨hex, d2, hm, hw⟩
  · obtain ⟨w1, w2, w3, w4⟩ := writeFile_spec p d d' c hw
    exact ⟨w1, w2, fun q hq hqne => (w3 q hq hqne).2, hpne,
      fun q hq hqne => Or.inr (w3 q hq hqne).1, w4⟩
  · obtain ⟨m1, m2, m3⟩ := mkdirRec_spec p.dropLast d d2 hm
    obtain ⟨w1, w2, w3, w4⟩ := writeFile_spec p d2 d' c hw
    have hppre : ¬(p <+: p.dropLast) := by
      intro hh
      exact ((prefix_dropLast_iff p p hpne).mp hh).2 rfl
    refine ⟨w1, ?_, fun q hq hqne => (w3 q hq hqne).2, hpne, ?_, ?_⟩
    · intro q hq
      have hq2 : ¬(q <+: p.dropLast) := fun hh =>
        hq (hh.trans (List.dropLast_prefix p))
      rw [w2 q hq, m2 q hq2]
    · intro q hq hqne
      exact m3 q ((prefix_dropLast_iff p q hpne).mpr ⟨hq, hqne⟩)
    · rw [isDirAt, m2 p hppre] at w4
      rw [isDirAt]
      exact w4

/-- A failed entry write: every file keeps its content, directories stay
directories, uniqueness of names is kept, and re-running the same entry
write from the resulting state fails again without further change. -/
theorem writeEntry_fail (d : Dir) (p : List String) (c : String) (d' : Dir)
    (h : writeEntry d p c = (d', true)) :
    (∀ q c0, getPath d q = some (.file c0) → getPath d' q = some (.file c0)) ∧
    (∀ q, isDirAt d q = true → isDirAt d' q = true) ∧
    (noDupL d = true → noDupL d' = true) ∧
    writeEntry d' p c = (d', true) := by
  rcases writeEntry_fail_cases d p c d' h with
    ⟨hex, rfl, hw⟩ | ⟨hex, hm, rfl⟩ | ⟨hex, hm, hw⟩
  · exact ⟨fun q c0 hq => hq, fun q hq => hq, fun hq => hq,
      writeEntry_of_exists_none _ p c hex hw⟩
  · exact ⟨fun q c0 hq => hq, fun q hq => hq, fun hq => hq, h⟩
  · obtain ⟨m1, m2, m3⟩ := mkdirRec_spec p.dropLast d d' hm
    refine ⟨?_, ?_, mkdirRec_noDup p.dropLast d d' hm, ?_⟩
    · intro q c0 hq
      have hq2 : ¬(q <+: p.dropLast) := by
        intro hh
        rcases m3 q hh with h1 | h1
        · rw [hq] at h1; exact absurd h1 (by simp)
        · obtain ⟨sub, h2⟩ := (isDirAt_iff d q).mp h1
          rw [hq] at h2; simp at h2
      rw [m2 q hq2]; exact hq
    · intro q hq
      by_cases hq2 : q <+: p.dropLast
      · exact m1 q hq2
      · rw [isDirAt, m2 q hq2]; exact hq
    · have hex2 : existsPath d' p.dropLast = true := by
        rw [existsPath]
        obtain ⟨sub, h1⟩ := (isDirAt_iff d' p.dropLast).mp
          (m1 p.dropLast (List.prefix_refl _))
        rw [h1]; rfl
      exact writeEntry_of_exists_none d' p c hex2 hw

/-- Both outcomes of an entry write preserve directory-ness, file contents
away from the target, file-ness, and the unique-names invariant. -/
theorem writeEntry_kinds (d : Dir) (p : List String) (c : String)
    (d' : Dir) (b : Bool) (h : writeEntry d p c = (d', b)) :
    (∀ q, isDirAt d q = true → isDirAt d' q = true) ∧
    (∀ q c0, q ≠ p → getPath d q = some (.file c0) → getPath d' q = some (.file c0)) ∧
    (∀ q, isFileAt d q = true → isFileAt d' q = true) ∧
    (noDupL d = true → noDupL d' = true) := by
  cases b with
  | true =>
    obtain ⟨f1, f2, f3, _⟩ := writeEntry_fail d p c d' h
    refine ⟨f2, fun q c0 _ hq => f1 q c0 hq, ?_, f3⟩
    intro q hq
    obtain ⟨c0, h1⟩ := (isFileAt_iff d q).mp hq
    exact (isFileAt_iff d' q).mpr ⟨c0, f1 q c0 h1⟩
  | false =>
    obtain ⟨w1, w2, w3, hpne, w5, w6⟩ := writeEntry_succ d p c d' h
    have hfile : ∀ q c0, q ≠ p → getPath d q = some (.file c0) →
        getPath d' q = some (.file c0) := by
      intro q c0 hqp hq
      by_cases hpre : q <+: p
      · exfalso
        rcases w5 q hpre hqp with h1 | h1
        · rw [hq] at h1; simp at h1
        · obtain ⟨sub, h2⟩ := (isDirAt_iff d q).mp h1
          rw [hq] at h2; simp at h2
      · rw [w2 q hpre]; exact hq
    refine ⟨?_, hfile, ?_, ?_⟩
    · intro q hq
      by_cases hpre : q <+: p
      · by_cases hqp : q = p
        · subst hqp; rw [hq] at w6; exact absurd w6 (by simp)
        · exact w3 q hpre hqp
      · rw [isDirAt, w2 q hpre]; exact hq
    · intro q hq
      obtain ⟨c0, h1⟩ := (isFileAt_iff d q).mp hq
      by_cases hqp : q = p
      · subst hqp
        exact (isFileAt_iff d' q).mpr ⟨c, w1⟩
      · exact (isFileAt_iff d' q).mpr ⟨c0, hfile q c0 hqp h1⟩
    · intro hnd
      rcases writeEntry_succ_cases d p c d' h with ⟨hex, hw⟩ | ⟨hex, d2, hm, hw⟩
      · exact writeFile_noDup p d d' c hw hnd
      · exact writeFile_noDup p d2 d' c hw (mkdirRec_noDup p.dropLast d d2 hm hnd)

/-! ## The entry loop: unfolding and preservation -/

theorem processEntries_nil (d : Dir) : processEntries [] d = ⟨d, [], false⟩ := rfl

theorem processEntries_cons_skip (e : RawEntry) (rest : List RawEntry) (d : Dir)
    (h : validEntry e = false) :
    processEntries (e :: rest) d =
      ⟨(processEntries rest d).dir, e :: (processEntries rest d).skipped,
       (processEntries rest d).failed⟩ := by
  simp [processEntries, h]

theorem processEntries_cons_fail (e : RawEntry) (rest : List RawEntry)
    (d d2 : Dir) (hv : validEntry e = true)
    (hw : writeEntry d (entrySegs e) (entryContent e) = (d2, true)) :
    processEntries (e :: rest) d = ⟨d2, [], true⟩ := by
  rw [processEntries, if_pos hv, hw]

theorem processEntries_cons_ok (e : RawEntry) (rest : List RawEntry)
    (d d2 : Dir) (hv : validEntry e = true)
    (hw : writeEntry d (entrySegs e) (entryContent e) = (d2, false)) :
    processEntries (e :: rest) d = processEntries rest d2 := by
  rw [processEntries, if_pos hv, hw]

theorem writtenPaths_nil (d : Dir) : writtenPaths [] d = [] := rfl

theorem writtenPaths_cons_skip (e : RawEntry) (rest : List RawEntry) (d : Dir)
    (h : validEntry e = false) :
    writtenPaths (e :: rest) d = writtenPaths rest d := by
  simp [writtenPaths, h]

theorem writtenPaths_cons_fail (e : RawEntry) (rest : List RawEntry)
    (d d2 : Dir) (hv : validEntry e = true)
    (hw : writeEntry d (entrySegs e) (entryContent e) = (d2, true)) :
    writtenPaths (e :: rest) d = [] := by
  rw [writtenPaths, if_pos hv, hw]

theorem writtenPaths_cons_ok (e : RawEntry) (rest : List RawEntry)
    (d d2 : Dir) (hv : validEntry e = true)
    (hw : writeEntry d (entrySegs e) (entryContent e) = (d2, false)) :
    writtenPaths (e :: rest) d = entrySegs e :: writtenPaths rest d2 := by
  rw [writtenPaths, if_pos hv, hw]

theorem validEntry_false_of_not (e : RawEntry) (h : ¬(validEntry e = true)) :
    validEntry e = false := by
  cases hb : validEntry e
  · rfl
  · exact absurd hb h

/-- The whole entry loop preserves directory-ness, file-ness and the
unique-names invariant of the output root. -/
theorem processEntries_kinds (es : List RawEntry) : ∀ d : Dir,
    (∀ q, isDirAt d q = true → isDirAt (processEntries es d).dir q = true) ∧
    (∀ q, isFileAt d q = true → isFileAt (processEntries es d).dir q = true) ∧
    (noDupL d = true → noDupL (processEntries es d).dir = true) := by
  induction es with
  | nil =>
    intro d
    rw [processEntries_nil]
    exact ⟨fun q h => h, fun q h => h, fun h => h⟩
  | cons e rest ih =>
    intro d
    by_cases hv : validEntry e = true
    · cases hwe : writeEntry d (entrySegs e) (entryContent e) with
      | mk d2 b =>
        obtain ⟨k1, k2, k3, k4⟩ := writeEntry_kinds d _ _ d2 b hwe
        cases b with
        | true =>
          rw [processEntries_cons_fail e rest d d2 hv hwe]
          exact ⟨k1, k3, k4⟩
        | false =>
          rw [processEntries_cons_ok e rest d d2 hv hwe]
          obtain ⟨i1, i2, i3⟩ := ih d2
          exact ⟨fun q h => i1 q (k1 q h), fun q h => i2 q (k3 q h),
            fun h => i3 (k4 h)⟩
    · rw [processEntries_cons_skip e rest d (validEntry_false_of_not e hv)]
      exact ih d

/-- A file whose path is never the target of a successful write of the run
keeps its content through the whole run. -/
theorem processEntries_unwritten (es : List RawEntry) :
    ∀ (d : Dir) (q : List String) (c0 : String),
    getPath d q = some (.file c0) → q ∉ writtenPaths es d →
    getPath (processEntries es d).dir q = some (.file c0) := by
  induction es with
  | nil => intro d q c0 h _; exact h
  | cons e rest ih =>
    intro d q c0 h hq
    by_cases hv : validEntry e = true
    · cases hwe : writeEntry d (entrySegs e) (entryContent e) with
      | mk d2 b =>
        cases b with
        | true =>
          rw [processEntries_cons_fail e rest d d2 hv hwe]
          exact (writeEntry_fail d _ _ d2 hwe).1 q c0 h
        | false =>
          rw [writtenPaths_cons_ok e rest d d2 hv hwe] at hq
          simp only [List.mem_cons, not_or] at hq
          rw [processEntries_cons_ok e rest d d2 hv hwe]
          exact ih d2 q c0
            ((writeEntry_kinds d _ _ d2 false hwe).2.1 q c0 hq.1 h) hq.2
    · have hv2 := validEntry_false_of_not e hv
      rw [writtenPaths_cons_skip e rest d hv2] at hq
      rw [processEntries_cons_skip e rest d hv2]
      exact ih d q c0 h hq

theorem getPath_eq_none_iff (d : Dir) (q : List String) :
    getPath d q = none ↔ existsPath d q = false := by
  rw [existsPath]
  cases h : getPath d q <;> simp

theorem writeEntry_of_mkdir_some (d : Dir) (p : List String) (c : String)
    (d2 d3 : Dir) (hex : existsPath d p.dropLast = false)
    (hm : mkdirRec d p.dropLast = some d2)
    (hw : writeFile d2 p c = some d3) :
    writeEntry d p c = (d3, false) := by
  rw [writeEntry_mk2 d p c hex, hm]
  show (match writeFile d2 p c with
        | none => ((d2 : Dir), true)
        | some d3 => (d3, false)) = (d3, false)
  rw [hw]

/-- An entry write succeeds whenever every proper prefix of the path is a
directory or absent and the target is a file or absent. -/
theorem writeEntry_of_good (d : Dir) (p : List String) (c : String)
    (hp : p ≠ [])
    (hpre : ∀ q, q <+: p → q ≠ p → getPath d q = none ∨ isDirAt d q = true)
    (htar : getPath d p = none ∨ isFileAt d p = true) :
    ∃ d', writeEntry d p c = (d', false) := by
  have htd : isDirAt d p = false := by
    cases hb : isDirAt d p
    · rfl
    · exfalso
      rcases htar with h1 | h1
      · obtain ⟨sub, h2⟩ := (isDirAt_iff d p).mp hb
        rw [h1] at h2; simp at h2
      · exact not_file_of_dir d p hb h1
  by_cases hex : existsPath d p.dropLast = true
  · have hdirs : ∀ q, q <+: p → q ≠ p → isDirAt d q = true := by
      intro q hq hqne
      rcases hpre q hq hqne with h1 | h1
      · exfalso
        have hq2 : q <+: p.dropLast := (prefix_dropLast_iff p q hp).mpr ⟨hq, hqne⟩
        have h3 := getPath_isSome_of_prefix q d p.dropLast hq2 hex
        rw [h1] at h3; simp at h3
      · exact h1
    have hw := writeFile_isSome p d c hp hdirs htd
    cases hww : writeFile d p c with
    | none => rw [hww] at hw; simp at hw
    | some d3 => exact ⟨d3, writeEntry_of_exists_some d p c d3 hex hww⟩
  · have hex2 : existsPath d p.dropLast = false := by
      cases hb : existsPath d p.dropLast
      · rfl
      · exact absurd hb hex
    have hm : (mkdirRec d p.dropLast).isSome = true := by
      refine mkdirRec_isSome p.dropLast d (fun q hq => ?_)
      have := (prefix_dropLast_iff p q hp).mp hq
      exact hpre q this.1 this.2
    cases hmm : mkdirRec d p.dropLast with
    | none => rw [hmm] at hm; simp at hm
    | some d2 =>
      obtain ⟨m1, m2, m3⟩ := mkdirRec_spec p.dropLast d d2 hmm
      have hppre : ¬(p <+: p.dropLast) := by
        intro hh
        exact ((prefix_dropLast_iff p p hp).mp hh).2 rfl
      have hw : (writeFile d2 p c).isSome = true := by
        refine writeFile_isSome p d2 c hp ?_ ?_
        · intro q hq hqne
          exact m1 q ((prefix_dropLast_iff p q hp).mpr ⟨hq, hqne⟩)
        · rw [isDirAt, m2 p hppre]
          rw [isDirAt] at htd
          exact htd
      cases hww : writeFile d2 p c with
      | none => rw [hww] at hw; simp at hw
      | some d3 => exact ⟨d3, writeEntry_of_mkdir_some d p c d2 d3 hex2 hmm hww⟩

/-! ## Claim C6 — a valid entry is written at `root/name` -/

/-- C6: for a valid entry `{name, content}` with a well-formed relative
name, provided every proper prefix of the split name is currently a
directory or absent and the target itself is a regular file or absent, the
writer run on that single entry succeeds (no skip, no error), after it the
content sits verbatim at the position given by splitting the name on `/`,
every intermediate directory exists afterwards (created if absent, reused
without error if present), an existing file at the target is overwritten,
and no other path of the root is touched. -/
theorem writer_writes_entry_correctly (n c : String) (d : Dir)
    (hn : wellFormedName n = true)
    (hpre : ∀ i, i < (splitName n).length →
      existsPath d ((splitName n).take i) = false ∨
      isDirAt d ((splitName n).take i) = true)
    (htar : existsPath d (splitName n) = false ∨
      isFileAt d (splitName n) = true) :
    ∃ d', processEntries [⟨some n, some c⟩] d = ⟨d', [], false⟩ ∧
      getPath d' (splitName n) = some (.file c) ∧
      (∀ q, q <+: splitName n → q ≠ splitName n → isDirAt d' q = true) ∧
      (∀ q, ¬(q <+: splitName n) → getPath d' q = getPath d q) := by
  have hne : ¬(n = "") := by
    intro hh
    rw [hh] at hn
    exact absurd hn (by decide)
  have hv : validEntry ⟨some n, some c⟩ = true := by
    simp [validEntry, hne]
  have hp : splitName n ≠ [] := by
    intro hh
    rw [wellFormedName, hh] at hn
    simp at hn
  have hpre2 : ∀ q, q <+: splitName n → q ≠ splitName n →
      getPath d q = none ∨ isDirAt d q = true := by
    intro q hq hqne
    have hqt : q = (splitName n).take q.length := List.prefix_iff_eq_take.mp hq
    have hlt : q.length < (splitName n).length := by
      have hle := hq.length_le
      rcases Nat.lt_or_ge q.length (splitName n).length with h1 | h1
      · exact h1
      · exact absurd (hq.eq_of_length (Nat.le_antisymm hle h1)) hqne
    rw [hqt]
    rcases hpre q.length hlt with h1 | h1
    · left; exact (getPath_eq_none_iff d _).mpr h1
    · right; exact h1
  have hsegs : entrySegs ⟨some n, some c⟩ = splitName n := rfl
  have hcont : entryContent ⟨some n, some c⟩ = c := rfl
  have htar2 : getPath d (splitName n) = none ∨ isFileAt d (splitName n) = true := by
    rcases htar with h1 | h1
    · left; exact (getPath_eq_none_iff d _).mpr h1
    · right; exact h1
  obtain ⟨d', hwe⟩ := writeEntry_of_good d (splitName n) c hp hpre2 htar2
  obtain ⟨w1, w2, w3, _, _, _⟩ := writeEntry_succ d (splitName n) c d' hwe
  refine ⟨d', ?_, w1, w3, w2⟩
  rw [processEntries_cons_ok ⟨some n, some c⟩ [] d d' hv (by rw [hsegs, hcont]; exact hwe),
    processEntries_nil]

/-- Witness for C6 at `name = "a/b/c.txt"`: the directories `a` and `a/b`
already exist, `a/b/c.txt` holds old content that is overwritten, and an
unrelated file survives untouched. -/
theorem writer_writes_entry_correctly_witness :
    ∃ d', processEntries [⟨some "a/b/c.txt", some "new"⟩]
        [("a", .dir [("b", .dir [("c.txt", .file "old")])]),
         ("keep.txt", .file "k")] = ⟨d', [], false⟩ ∧
      getPath d' (splitName "a/b/c.txt") = some (.file "new") ∧
      (∀ q, q <+: splitName "a/b/c.txt" → q ≠ splitName "a/b/c.txt" →
        isDirAt d' q = true) ∧
      (∀ q, ¬(q <+: splitName "a/b/c.txt") →
        getPath d' q = getPath
          [("a", PNode.dir [("b", PNode.dir [("c.txt", PNode.file "old")])]),
           ("keep.txt", PNode.file "k")] q) :=
  writer_writes_entry_correctly "a/b/c.txt" "new"
    [("a", .dir [("b", .dir [("c.txt", .file "old")])]),
     ("keep.txt", .file "k")]
    (by decide) (by decide) (by decide)

/-! ## The writer on conflict-free documents (towards C2) -/

/-- Entry names are pairwise non-conflicting: no split name is a prefix of
(or equal to) another. -/
def nonConflicting (a b : RawEntry) : Prop :=
  ¬(entrySegs a <+: entrySegs b) ∧ ¬(entrySegs b <+: entrySegs a)

theorem wfEntry_valid (e : RawEntry) (h : wfEntry e = true) :
    validEntry e = true := by
  rw [wfEntry, Bool.and_eq_true] at h
  exact h.1

theorem wfEntry_segs_ne_nil (e : RawEntry) (h : wfEntry e = true) :
    entrySegs e ≠ [] := by
  rw [wfEntry, Bool.and_eq_true] at h
  intro hh
  have := h.2
  rw [wellFormedName] at this
  rw [entrySegs] at hh
  rw [hh] at this
  simp at this

/-- Conditions under which an entry can be written into a root: every proper
prefix of its path is a directory or absent, the target a file or absent. -/
def goodFor (d : Dir) (p : List String) : Prop :=
  (∀ q, q <+: p → q ≠ p → getPath d q = none ∨ isDirAt d q = true) ∧
  (getPath d p = none ∨ isFileAt d p = true)

/-- On a conflict-free, well-formed document every entry is written: the run
does not fail, skips nothing, leaves each entry's content at its split name,
and touches nothing else. -/
theorem writer_correct_aux (es : List RawEntry) : ∀ (d : Dir),
    (∀ e ∈ es, wfEntry e = true) →
    List.Pairwise nonConflicting es →
    (∀ e ∈ es, goodFor d (entrySegs e)) →
    (processEntries es d).failed = false ∧
    (processEntries es d).skipped = [] ∧
    (∀ e ∈ es, getPath (processEntries es d).dir (entrySegs e) =
      some (.file (entryContent e))) ∧
    (∀ q, (∀ e ∈ es, ¬(q <+: entrySegs e)) →
      getPath (processEntries es d).dir q = getPath d q) := by
  induction es with
  | nil =>
    intro d _ _ _
    rw [processEntries_nil]
    exact ⟨rfl, rfl, fun e he => absurd he (List.not_mem_nil e), fun q _ => rfl⟩
  | cons e rest ih =>
    intro d hwf hnp hgood
    have hwfe := hwf e (List.mem_cons_self e rest)
    have hv := wfEntry_valid e hwfe
    have hp := wfEntry_segs_ne_nil e hwfe
    obtain ⟨hge, hgt⟩ := hgood e (List.mem_cons_self e rest)
    obtain ⟨d3, hwe⟩ := writeEntry_of_good d (entrySegs e) (entryContent e) hp hge hgt
    obtain ⟨w1, w2, w3, _, _, _⟩ := writeEntry_succ d (entrySegs e) (entryContent e) d3 hwe
    rw [List.pairwise_cons] at hnp
    have hproc := processEntries_cons_ok e rest d d3 hv hwe
    have hgood3 : ∀ e2 ∈ rest, goodFor d3 (entrySegs e2) := by
      intro e2 he2
      obtain ⟨hge2, hgt2⟩ := hgood e2 (List.mem_cons_of_mem e he2)
      obtain ⟨hnc1, hnc2⟩ := hnp.1 e2 he2
      constructor
      · intro q hq hqne
        by_cases hqp : q <+: entrySegs e
        · by_cases hqe : q = entrySegs e
          · exact absurd (hqe ▸ hq) hnc1
          · right; exact w3 q hqp hqe
        · rcases hge2 q hq hqne with h1 | h1
          · left; rw [w2 q hqp]; exact h1
          · right; rw [isDirAt, w2 q hqp]
            rw [isDirAt] at h1
            exact h1
      · have hqp : ¬(entrySegs e2 <+: entrySegs e) := hnc2
        rcases hgt2 with h1 | h1
        · left; rw [w2 _ hqp]; exact h1
        · right; rw [isFileAt, w2 _ hqp]
          rw [isFileAt] at h1
          exact h1
    obtain ⟨f1, f2, f3, f4⟩ := ih d3 (fun e2 he2 => hwf e2 (List.mem_cons_of_mem e he2))
      hnp.2 hgood3
    rw [hproc]
    refine ⟨f1, f2, ?_, ?_⟩
    · intro e2 he2
      rcases List.mem_cons.mp he2 with rfl | he2
      · rw [f4 (entrySegs e2) (fun e3 he3 => (hnp.1 e3 he3).1)]
        exact w1
      · exact f3 e2 he2
    · intro q hq
      rw [f4 q (fun e3 he3 => hq e3 (List.mem_cons_of_mem e he3))]
      exact w2 q (hq e (List.mem_cons_self e rest))

/-! ## Reading back a written tree (the reader on pure trees) -/

/-- Reading the embedded image of a pure entry list succeeds and produces
exactly the structural value of each entry. -/
theorem readItems_toFSList : ∀ es : Dir,
    readItems (toFSList es) = .ok (pureDirValue es)
  | [] => rfl
  | (n, .file c) :: rest => by
    rw [show toFSList ((n, .file c) :: rest) =
      (n, FSNode.file c) :: toFSList rest from rfl]
    rw [readItems, readItems_toFSList rest]
    rfl
  | (n, .dir sub) :: rest => by
    rw [show toFSList ((n, .dir sub) :: rest) =
      (n, FSNode.dir (toFSList sub)) :: toFSList rest from rfl]
    rw [readItems, readItems_toFSList rest]
    rw [show readDirectoryStructure (FSNode.dir (toFSList sub)) =
      (match readItems (toFSList sub) with
       | .ok kvs => JSON.obj kvs
       | .error m => JSON.obj [("error", .str ("Error reading directory: " ++ m))])
      from rfl]
    rw [readItems_toFSList sub]
    rfl

/-- The reader on the image of a pure directory returns its structural
value. -/
theorem read_toFS_dir (es : Dir) :
    readDirectoryStructure (PNode.toFS (.dir es)) = .obj (pureDirValue es) := by
  rw [show PNode.toFS (.dir es) = FSNode.dir (toFSList es) from rfl]
  rw [readDirectoryStructure, readItems_toFSList es]

theorem lookupJ_pureDirValue (d : Dir) (n : String) :
    lookupJ (pureDirValue d) n = (lookupE d n).map pureValue := by
  induction d with
  | nil => rfl
  | cons hd tl ih =>
    obtain ⟨k, v⟩ := hd
    rw [show pureDirValue ((k, v) :: tl) = (k, pureValue v) :: pureDirValue tl from rfl]
    rw [lookupJ, lookupE]
    by_cases hk : k = n
    · rw [if_pos hk, if_pos hk]; rfl
    · rw [if_neg hk, if_neg hk, ih]

/-- Navigating the reader's output of a pure tree is exactly path resolution
followed by the structural value. -/
theorem jsonLookup_pureValue (p : List String) : ∀ d : Dir,
    jsonLookup (.obj (pureDirValue d)) p = (getPath d p).map pureValue := by
  induction p with
  | nil => intro d; rfl
  | cons s rest ih =>
    intro d
    rw [show jsonLookup (.obj (pureDirValue d)) (s :: rest) =
      (match lookupJ (pureDirValue d) s with
       | some j => jsonLookup j rest
       | none => none) from rfl]
    rw [lookupJ_pureDirValue]
    cases hl : lookupE d s with
    | none => rw [getPath_cons_none d s rest hl]; rfl
    | some x =>
      cases x with
      | file c =>
        rw [getPath_cons_file d s rest c hl]
        cases rest with
        | nil => rfl
        | cons r rest' => rw [if_neg (by simp)]; rfl
      | dir sub =>
        rw [getPath_cons_dir d s rest sub hl]
        exact ih sub

/-! ## Claim C2 — writer/reader round trip -/

/-- Counterexample for C2 as stated: with two entries of the same name the
writer's last write wins, so reading back yields `y` at position `a` and the
first listed entry's content `x` is not reproduced; and against a
destination root that already holds a directory named `a`, the writer exits
with code 1 without writing the entry. -/
theorem writer_reader_roundtrip_cex :
    ((generateProject (.files [⟨some "a", some "x"⟩, ⟨some "a", some "y"⟩])
        none).root = some [("a", PNode.file "y")] ∧
      jsonLookup (readDirectoryStructure (PNode.toFS
        (.dir [("a", PNode.file "y")]))) (splitName "a") = some (.str "y") ∧
      JSON.str "y" ≠ JSON.str "x") ∧
    (generateProject (.files [⟨some "a", some "x"⟩])
      (some [("a", PNode.dir [("z", PNode.file "w")])])).exitCode = 1 ∧
    (generateProject (.files [⟨some "a", some "x"⟩])
      (some [("a", PNode.dir [("z", PNode.file "w")])])).root =
      some [("a", PNode.dir [("z", PNode.file "w")])] := by
  refine ⟨⟨rfl, rfl, ?_⟩, rfl, rfl⟩
  intro h
  injection h with h2
  exact absurd h2 (by decide)

/-- C2 (amended): for a well-formed writer document whose entries have
well-formed names, no split name being a prefix of (or equal to) another
listed name, and a destination root that does not yet exist or is an empty
directory, running the writer and then the reader on the destination yields,
for every listed entry, exactly that entry's content at the position given
by splitting its name on `/`. -/
theorem writer_reader_roundtrip (es : List RawEntry) (root0 : Option Dir)
    (hroot : root0 = none ∨ root0 = some [])
    (hwf : ∀ e ∈ es, wfEntry e = true)
    (hnp : List.Pairwise nonConflicting es) :
    ∃ d, (generateProject (.files es) root0).root = some d ∧
      (generateProject (.files es) root0).exitCode = 0 ∧
      (generateProject (.files es) root0).skipped = [] ∧
      ∀ e ∈ es, jsonLookup (readDirectoryStructure (PNode.toFS (.dir d)))
        (entrySegs e) = some (.str (entryContent e)) := by
  have hd0 : root0.getD [] = [] := by
    rcases hroot with rfl | rfl <;> rfl
  have hgood : ∀ e ∈ es, goodFor ([] : Dir) (entrySegs e) := by
    intro e he
    constructor
    · intro q hq hqne
      cases q with
      | nil => right; exact isDirAt_nil []
      | cons u q' => left; exact getPath_cons_none [] u q' rfl
    · left
      exact getPath_nil_empty (entrySegs e) (wfEntry_segs_ne_nil e (hwf e he))
  obtain ⟨f1, f2, f3, _⟩ := writer_correct_aux es [] hwf hnp hgood
  refine ⟨(processEntries es []).dir, ?_, ?_, ?_, ?_⟩
  · rw [generateProject, hd0]
  · rw [generateProject, hd0]
    simp [f1]
  · rw [generateProject, hd0]
    exact f2
  · intro e he
    rw [read_toFS_dir, jsonLookup_pureValue, f3 e he]
    rfl

/-- Witness for C2 at the spec's own concrete scenario: two entries
`a.txt ↦ hi` and `sub/b.txt ↦ yo` against a nonexistent destination. -/
theorem writer_reader_roundtrip_witness :
    ∃ d, (generateProject
        (.files [⟨some "a.txt", some "hi"⟩, ⟨some "sub/b.txt", some "yo"⟩])
        none).root = some d ∧
      (generateProject
        (.files [⟨some "a.txt", some "hi"⟩, ⟨some "sub/b.txt", some "yo"⟩])
        none).exitCode = 0 ∧
      (generateProject
        (.files [⟨some "a.txt", some "hi"⟩, ⟨some "sub/b.txt", some "yo"⟩])
        none).skipped = [] ∧
      ∀ e ∈ [(⟨some "a.txt", some "hi"⟩ : RawEntry), ⟨some "sub/b.txt", some "yo"⟩],
        jsonLookup (readDirectoryStructure (PNode.toFS (.dir d)))
          (entrySegs e) = some (.str (entryContent e)) :=
  writer_reader_roundtrip
    [⟨some "a.txt", some "hi"⟩, ⟨some "sub/b.txt", some "yo"⟩] none
    (Or.inl rfl) (by decide)
    (by
      constructor
      · intro b hb
        rw [List.mem_singleton] at hb
        subst hb
        exact ⟨by decide, by decide⟩
      · exact List.pairwise_singleton _ _)

/-! ## Agreement up to rewritten file contents (towards C7) -/

mutual
/-- Two nodes (sitting at path `p`) have the same shape, and equal file
contents except possibly at paths listed in `W`. -/
def agreeN (W : List (List String)) (p : List String) : PNode → PNode → Prop
  | .file c1, .file c2 => c1 = c2 ∨ p ∈ W
  | .dir e1, .dir e2 => agreeL W p e1 e2
  | _, _ => False

/-- Pointwise agreement of two entry lists of a directory at path `p`. -/
def agreeL (W : List (List String)) (p : List String) : Dir → Dir → Prop
  | [], [] => True
  | (n1, x1) :: r1, (n2, x2) :: r2 =>
    n1 = n2 ∧ agreeN W (p ++ [n1]) x1 x2 ∧ agreeL W p r1 r2
  | _, _ => False
end

mutual
theorem agreeN_refl : ∀ (x : PNode) (W : List (List String)) (p : List String),
    agreeN W p x x
  | .file _, _, _ => Or.inl rfl
  | .dir es, W, p => agreeL_refl es W p

theorem agreeL_refl : ∀ (d : Dir) (W : List (List String)) (p : List String),
    agreeL W p d d
  | [], _, _ => trivial
  | (n, x) :: r, W, p => ⟨rfl, agreeN_refl x W (p ++ [n]), agreeL_refl r W p⟩
end

mutual
theorem agreeN_nil_eq : ∀ (x y : PNode) (p : List String),
    agreeN [] p x y → x = y
  | .file c1, .file c2, p, h => by
    have h2 : c1 = c2 ∨ p ∈ ([] : List (List String)) := h
    rcases h2 with h2 | h2
    · rw [h2]
    · exact absurd h2 (List.not_mem_nil p)
  | .file _, .dir _, _, h => (show False from h).elim
  | .dir _, .file _, _, h => (show False from h).elim
  | .dir e1, .dir e2, p, h => by rw [agreeL_nil_eq e1 e2 p h]

theorem agreeL_nil_eq : ∀ (d1 d2 : Dir) (p : List String),
    agreeL [] p d1 d2 → d1 = d2
  | [], [], _, _ => rfl
  | [], (_, _) :: _, _, h => (show False from h).elim
  | (_, _) :: _, [], _, h => (show False from h).elim
  | (n1, x1) :: r1, (n2, x2) :: r2, p, h => by
    have h2 : n1 = n2 ∧ agreeN [] (p ++ [n1]) x1 x2 ∧ agreeL [] p r1 r2 := h
    rw [h2.1, agreeN_nil_eq x1 x2 (p ++ [n1]) h2.2.1, agreeL_nil_eq r1 r2 p h2.2.2]
end

mutual
/-- Dropping the head of the exception list is sound for a node whose
position is not an ancestor of (or equal to) the dropped path. -/
theorem agreeN_weaken : ∀ (x y : PNode) (W : List (List String))
    (pp p : List String), agreeN (pp :: W) p x y → ¬(p <+: pp) → agreeN W p x y
  | .file c1, .file c2, W, pp, p, h, hpre => by
    have h2 : c1 = c2 ∨ p ∈ pp :: W := h
    show c1 = c2 ∨ p ∈ W
    rcases h2 with h2 | h2
    · exact Or.inl h2
    · rcases List.mem_cons.mp h2 with rfl | h2
      · exact absurd (List.prefix_refl p) hpre
      · exact Or.inr h2
  | .file _, .dir _, _, _, _, h, _ => (show False from h).elim
  | .dir _, .file _, _, _, _, h, _ => (show False from h).elim
  | .dir e1, .dir e2, W, pp, p, h, hpre =>
    agreeL_weaken e1 e2 W pp p h
      (fun n _ hh => hpre ((List.prefix_append p [n]).trans hh))

/-- Dropping the head of the exception list is sound for entry lists none
of whose keys starts a path leading to the dropped path. -/
theorem agreeL_weaken : ∀ (d1 d2 : Dir) (W : List (List String))
    (pp pre : List String), agreeL (pp :: W) pre d1 d2 →
    (∀ n, hasKey d1 n = true → ¬(pre ++ [n] <+: pp)) →
    agreeL W pre d1 d2
  | [], [], _, _, _, _, _ => trivial
  | [], (_, _) :: _, _, _, _, h, _ => (show False from h).elim
  | (_, _) :: _, [], _, _, _, h, _ => (show False from h).elim
  | (n1, x1) :: r1, (n2, x2) :: r2, W, pp, pre, h, hcond => by
    have h2 : n1 = n2 ∧ agreeN (pp :: W) (pre ++ [n1]) x1 x2 ∧
        agreeL (pp :: W) pre r1 r2 := h
    have hk1 : hasKey ((n1, x1) :: r1) n1 = true := by
      simp [hasKey, lookupE]
    refine ⟨h2.1, agreeN_weaken x1 x2 W pp (pre ++ [n1]) h2.2.1 (hcond n1 hk1), ?_⟩
    refine agreeL_weaken r1 r2 W pp pre h2.2.2 (fun n hn => hcond n ?_)
    rw [hasKey, lookupE]
    by_cases hnn : n1 = n
    · rw [if_pos hnn]
      rfl
    · rw [if_neg hnn]
      exact hn
end

/-- Agreement transfers path lookups: either both absent, or both present
with agreeing nodes. -/
theorem agreeL_lookup : ∀ (d1 d2 : Dir) (W : List (List String))
    (p : List String) (n : String), agreeL W p d1 d2 →
    (lookupE d1 n = none ∧ lookupE d2 n = none) ∨
    (∃ x y, lookupE d1 n = some x ∧ lookupE d2 n = some y ∧
      agreeN W (p ++ [n]) x y) := by
  intro d1
  induction d1 with
  | nil =>
    intro d2 W p n h
    cases d2 with
    | nil => left; exact ⟨rfl, rfl⟩
    | cons hd tl => obtain ⟨k, v⟩ := hd; exact (show False from h).elim
  | cons hd r1 ih =>
    obtain ⟨n1, x1⟩ := hd
    intro d2 W p n h
    cases d2 with
    | nil => exact (show False from h).elim
    | cons hd2 r2 =>
      obtain ⟨n2, x2⟩ := hd2
      have h2 : n1 = n2 ∧ agreeN W (p ++ [n1]) x1 x2 ∧ agreeL W p r1 r2 := h
      obtain ⟨rfl, hx, hr⟩ := h2
      by_cases hn : n1 = n
      · subst hn
        right
        exact ⟨x1, x2, by rw [lookupE, if_pos rfl], by rw [lookupE, if_pos rfl], hx⟩
      · rw [lookupE, if_neg hn, lookupE, if_neg hn]
        exact ih r2 W p n hr

/-- Agreement transfers whole-path resolution. -/
theorem agreeL_getPath (q : List String) : ∀ (d1 d2 : Dir)
    (W : List (List String)) (p : List String), agreeL W p d1 d2 →
    (getPath d1 q = none ∧ getPath d2 q = none) ∨
    (∃ x y, getPath d1 q = some x ∧ getPath d2 q = some y ∧
      agreeN W (p ++ q) x y) := by
  induction q with
  | nil =>
    intro d1 d2 W p h
    right
    refine ⟨.dir d1, .dir d2, rfl, rfl, ?_⟩
    rw [List.append_nil]
    exact h
  | cons s rest ih =>
    intro d1 d2 W p h
    rcases agreeL_lookup d1 d2 W p s h with ⟨h1, h2⟩ | ⟨x, y, h1, h2, hxy⟩
    · left
      exact ⟨getPath_cons_none d1 s rest h1, getPath_cons_none d2 s rest h2⟩
    · cases x with
      | file c1 =>
        cases y with
        | dir e2 => exact (show False from hxy).elim
        | file c2 =>
          rw [getPath_cons_file d1 s rest c1 h1, getPath_cons_file d2 s rest c2 h2]
          cases rest with
          | nil =>
            right
            refine ⟨.file c1, .file c2, by rw [if_pos rfl], by rw [if_pos rfl], ?_⟩
            exact hxy
          | cons r rest' =>
            left
            rw [if_neg (by simp), if_neg (by simp)]
            exact ⟨rfl, rfl⟩
      | dir e1 =>
        cases y with
        | file c2 => exact (show False from hxy).elim
        | dir e2 =>
          rw [getPath_cons_dir d1 s rest e1 h1, getPath_cons_dir d2 s rest e2 h2]
          have := ih e1 e2 W (p ++ [s]) hxy
          rcases this with h3 | ⟨x', y', h3, h4, hxy'⟩
          · left; exact h3
          · right
            refine ⟨x', y', h3, h4, ?_⟩
            rw [List.append_assoc] at hxy'
            simpa using hxy'

/-- Agreement makes the control-relevant observations equal. -/
theorem agreeL_kinds (d1 d2 : Dir) (W : List (List String))
    (h : agreeL W [] d1 d2) (q : List String) :
    isDirAt d1 q = isDirAt d2 q ∧ isFileAt d1 q = isFileAt d2 q ∧
    existsPath d1 q = existsPath d2 q := by
  rcases agreeL_getPath q d1 d2 W [] h with ⟨h1, h2⟩ | ⟨x, y, h1, h2, hxy⟩
  · rw [isDirAt, isFileAt, existsPath, h1, isDirAt, isFileAt, existsPath, h2]
    exact ⟨rfl, rfl, rfl⟩
  · cases x with
    | file c1 =>
      cases y with
      | dir e2 => exact (show False from hxy).elim
      | file c2 =>
        rw [isDirAt, isFileAt, existsPath, h1, isDirAt, isFileAt, existsPath, h2]
        exact ⟨rfl, rfl, rfl⟩
    | dir e1 =>
      cases y with
      | file c2 => exact (show False from hxy).elim
      | dir e2 =>
        rw [isDirAt, isFileAt, existsPath, h1, isDirAt, isFileAt, existsPath, h2]
        exact ⟨rfl, rfl, rfl⟩

/-- Replacing the node at an existing key preserves agreement, provided the
replacement still agrees (with the head exception dropped) with the other
side's node, and no other key of the list can lead to the dropped path. -/
theorem agreeL_insert : ∀ (w v : Dir) (W : List (List String))
    (pp pre : List String) (s : String) (x1 newx : PNode),
    agreeL (pp :: W) pre w v →
    noDupL w = true →
    lookupE w s = some x1 →
    (∀ x2, lookupE v s = some x2 → agreeN (pp :: W) (pre ++ [s]) x1 x2 →
      agreeN W (pre ++ [s]) newx x2) →
    (∀ n, n ≠ s → hasKey w n = true → ¬(pre ++ [n] <+: pp)) →
    agreeL W pre (insertE w s newx) v := by
  intro w
  induction w with
  | nil => intro v W pp pre s x1 newx h hnd hl _ _; simp [lookupE] at hl
  | cons hd r1 ih =>
    obtain ⟨n1, x1'⟩ := hd
    intro v W pp pre s x1 newx h hnd hl hstep hcond
    cases v with
    | nil => exact (show False from h).elim
    | cons hd2 r2 =>
      obtain ⟨n2, x2'⟩ := hd2
      have h2 : n1 = n2 ∧ agreeN (pp :: W) (pre ++ [n1]) x1' x2' ∧
          agreeL (pp :: W) pre r1 r2 := h
      obtain ⟨hn12, hx, hr⟩ := h2
      have hnd2 : (!hasKey r1 n1 && noDupN x1' && noDupL r1) = true := hnd
      simp only [Bool.and_eq_true, Bool.not_eq_true'] at hnd2
      by_cases h1s : n1 = s
      · subst h1s
        rw [lookupE, if_pos rfl] at hl
        have hx1 : x1' = x1 := by injection hl
        subst hx1
        rw [insertE, if_pos rfl]
        have hv2 : lookupE ((n2, x2') :: r2) n1 = some x2' := by
          rw [lookupE, if_pos hn12.symm]
        refine ⟨hn12, hstep x2' hv2 hx, ?_⟩
        refine agreeL_weaken r1 r2 W pp pre hr (fun n hn => hcond n ?_ ?_)
        · intro hns
          subst hns
          rw [hn] at hnd2
          exact absurd hnd2.1.1 (by simp)
        · rw [hasKey, lookupE]
          by_cases hnn : n1 = n
          · rw [if_pos hnn]; rfl
          · rw [if_neg hnn]; exact hn
      · rw [lookupE, if_neg h1s] at hl
        rw [insertE, if_neg h1s]
        have hk1 : hasKey ((n1, x1') :: r1) n1 = true := by
          simp [hasKey, lookupE]
        refine ⟨hn12, agreeN_weaken x1' x2' W pp (pre ++ [n1]) hx
          (hcond n1 h1s hk1), ?_⟩
        have hstep2 : ∀ x2, lookupE r2 s = some x2 →
            agreeN (pp :: W) (pre ++ [s]) x1 x2 →
            agreeN W (pre ++ [s]) newx x2 := by
          intro x2 hlx2 hagr
          refine hstep x2 ?_ hagr
          rw [lookupE, if_neg (fun hh => h1s (hn12.trans hh))]
          exact hlx2
        refine ih r2 W pp pre s x1 newx hr hnd2.2 hl hstep2
          (fun n hns hn => hcond n hns ?_)
        rw [hasKey, lookupE]
        by_cases hnn : n1 = n
        · rw [if_pos hnn]; rfl
        · rw [if_neg hnn]; exact hn

/-- Writing, into `w`, content `c` over an existing file at `pth` removes
`pre ++ pth` from the exception list of an agreement with `v`, provided `v`
already holds `c` there or the path remains excepted. -/
theorem agreeL_write : ∀ (pth : List String) (w v w1 : Dir)
    (W : List (List String)) (pre : List String) (c : String),
    agreeL ((pre ++ pth) :: W) pre w v →
    noDupL w = true →
    writeFile w pth c = some w1 →
    (∃ c0, getPath w pth = some (.file c0)) →
    ((pre ++ pth) ∈ W ∨ getPath v pth = some (.file c)) →
    agreeL W pre w1 v := by
  intro pth
  induction pth with
  | nil => intro w v w1 W pre c _ _ hw _ _; rw [writeFile_nil] at hw; simp at hw
  | cons s rest ih =>
    intro w v w1 W pre c h hnd hw hfile hlast
    cases rest with
    | nil =>
      obtain ⟨c0, hc0⟩ := hfile
      have hl : lookupE w s = some (.file c0) := by
        cases hl2 : lookupE w s with
        | none => rw [getPath_cons_none w s [] hl2] at hc0; simp at hc0
        | some x =>
          cases x with
          | file c1 =>
            rw [getPath_cons_file w s [] c1 hl2] at hc0
            rw [if_pos rfl] at hc0
            injection hc0 with hc1
            rw [hc1]
          | dir sub =>
            rw [getPath_cons_dir w s [] sub hl2] at hc0
            exact absurd (show some (PNode.dir sub) = some (PNode.file c0) from hc0)
              (by simp)
      have hw1 : w1 = insertE w s (.file c) := by
        rw [writeFile_single, hl] at hw
        injection hw with hh
        exact hh.symm
      subst hw1
      refine agreeL_insert w v W (pre ++ [s]) pre s (.file c0) (.file c) h hnd hl
        ?_ ?_
      · intro x2 hlx2 hagr
        cases x2 with
        | dir e2 => exact (show False from hagr).elim
        | file c2 =>
          show c = c2 ∨ pre ++ [s] ∈ W
          rcases hlast with hmem | hv
          · exact Or.inr hmem
          · rw [getPath_cons_file v s [] c2 hlx2, if_pos rfl] at hv
            injection hv with hv2
            injection hv2 with hv3
            exact Or.inl hv3.symm
      · intro n hns _ hh
        have h4 : [n] <+: [s] := (List.prefix_append_right_inj pre).mp hh
        obtain ⟨h5, _⟩ := List.cons_prefix_cons.mp h4
        exact hns h5
    | cons r rest' =>
      obtain ⟨c0, hc0⟩ := hfile
      have hl : ∃ sub, lookupE w s = some (.dir sub) := by
        cases hl2 : lookupE w s with
        | none => rw [getPath_cons_none w s (r :: rest') hl2] at hc0; simp at hc0
        | some x =>
          cases x with
          | file c1 =>
            rw [getPath_cons_file w s (r :: rest') c1 hl2] at hc0
            rw [if_neg (by simp)] at hc0
            simp at hc0
          | dir sub => exact ⟨sub, rfl⟩
      obtain ⟨sub, hl⟩ := hl
      have hc0' : getPath sub (r :: rest') = some (.file c0) := by
        rw [getPath_cons_dir w s (r :: rest') sub hl] at hc0
        exact hc0
      rw [writeFile_cons_dir w s r rest' c sub hl] at hw
      obtain ⟨sub1, hws, hw1⟩ := Option.map_eq_some'.mp hw
      subst hw1
      have hnds : noDupL sub = true := noDupN_lookupE w s (.dir sub) hnd hl
      refine agreeL_insert w v W (pre ++ (s :: r :: rest')) pre s (.dir sub)
        (.dir sub1) h hnd hl ?_ ?_
      · intro x2 hlx2 hagr
        cases x2 with
        | file c2 => exact (show False from hagr).elim
        | dir sub2 =>
          show agreeL W (pre ++ [s]) sub1 sub2
          have hagr2 : agreeL ((pre ++ (s :: r :: rest')) :: W) (pre ++ [s])
              sub sub2 := hagr
          have hassoc : pre ++ (s :: r :: rest') = (pre ++ [s]) ++ (r :: rest') := by
            simp
          rw [hassoc] at hagr2
          refine ih sub sub2 sub1 W (pre ++ [s]) c hagr2 hnds hws ⟨c0, hc0'⟩ ?_
          rcases hlast with hmem | hv
          · left
            rw [← hassoc]
            exact hmem
          · right
            rw [getPath_cons_dir v s (r :: rest') sub2 hlx2] at hv
            exact hv
      · intro n hns _ hh
        have h4 : [n] <+: s :: r :: rest' :=
          (List.prefix_append_right_inj pre).mp hh
        obtain ⟨h5, _⟩ := List.cons_prefix_cons.mp h4
        exact hns h5

/-- Replaying a run of the entry loop from its own final state (or any state
agreeing with it except at the contents the run overwrites anyway)
reproduces the run exactly. -/
theorem processEntries_replay : ∀ (es : List RawEntry) (d w : Dir),
    noDupL w = true →
    agreeL (writtenPaths es d) [] w (processEntries es d).dir →
    processEntries es w = processEntries es d := by
  intro es
  induction es with
  | nil =>
    intro d w _ hag
    rw [writtenPaths_nil, processEntries_nil] at hag
    have hag2 : agreeL [] [] w d := hag
    rw [agreeL_nil_eq w d [] hag2]
  | cons e rest ih =>
    intro d w hnd hag
    by_cases hv : validEntry e = true
    · cases hwe : writeEntry d (entrySegs e) (entryContent e) with
      | mk d2 b =>
        cases b with
        | true =>
          rw [writtenPaths_cons_fail e rest d d2 hv hwe,
            processEntries_cons_fail e rest d d2 hv hwe] at hag
          have hag2 : agreeL [] [] w d2 := hag
          have hw : w = d2 := agreeL_nil_eq w d2 [] hag2
          subst hw
          rw [processEntries_cons_fail e rest d w hv hwe]
          exact processEntries_cons_fail e rest w w hv
            (writeEntry_fail d _ _ w hwe).2.2.2
        | false =>
          rw [writtenPaths_cons_ok e rest d d2 hv hwe] at hag
          rw [processEntries_cons_ok e rest d d2 hv hwe] at hag ⊢
          obtain ⟨w1spec, w2, w3, hpne, _, _⟩ :=
            writeEntry_succ d (entrySegs e) (entryContent e) d2 hwe
          obtain ⟨k1, k2, k3⟩ := processEntries_kinds rest d2
          have hdirsR : ∀ q, q <+: entrySegs e → q ≠ entrySegs e →
              isDirAt (processEntries rest d2).dir q = true :=
            fun q hq hqne => k1 q (w3 q hq hqne)
          have hfileR : isFileAt (processEntries rest d2).dir (entrySegs e) = true :=
            k2 _ ((isFileAt_iff d2 _).mpr ⟨entryContent e, w1spec⟩)
          have hkw := fun q => agreeL_kinds w (processEntries rest d2).dir _ hag q
          have hdirs_w : ∀ q, q <+: entrySegs e → q ≠ entrySegs e →
              isDirAt w q = true := by
            intro q hq hqne
            rw [(hkw q).1]
            exact hdirsR q hq hqne
          have hfile_w : isFileAt w (entrySegs e) = true := by
            rw [(hkw _).2.1]
            exact hfileR
          have hnotdir_w : isDirAt w (entrySegs e) = false := by
            cases hb : isDirAt w (entrySegs e)
            · rfl
            · exact (not_file_of_dir w _ hb hfile_w).elim
          have hex_w : existsPath w (entrySegs e).dropLast = true := by
            have hdl := (prefix_dropLast_iff (entrySegs e) (entrySegs e).dropLast
              hpne).mp (List.prefix_refl _)
            obtain ⟨sub, hsub⟩ := (isDirAt_iff w _).mp (hdirs_w _ hdl.1 hdl.2)
            rw [existsPath, hsub]
            rfl
          have hws := writeFile_isSome (entrySegs e) w (entryContent e)
            hpne hdirs_w hnotdir_w
          cases hww : writeFile w (entrySegs e) (entryContent e) with
          | none => rw [hww] at hws; simp at hws
          | some w2' =>
            have hwe_w : writeEntry w (entrySegs e) (entryContent e) = (w2', false) :=
              writeEntry_of_exists_some w _ _ w2' hex_w hww
            obtain ⟨cw, hcw⟩ := (isFileAt_iff w _).mp hfile_w
            have hlast : entrySegs e ∈ writtenPaths rest d2 ∨
                getPath (processEntries rest d2).dir (entrySegs e) =
                  some (.file (entryContent e)) := by
              by_cases hmem : entrySegs e ∈ writtenPaths rest d2
              · exact Or.inl hmem
              · exact Or.inr (processEntries_unwritten rest d2 _ _ w1spec hmem)
            have hag2 : agreeL (writtenPaths rest d2) [] w2' (processEntries rest d2).dir := by
              refine agreeL_write (entrySegs e) w (processEntries rest d2).dir w2'
                (writtenPaths rest d2) [] (entryContent e) ?_ hnd hww ⟨cw, hcw⟩ ?_
              · rw [List.nil_append]
                exact hag
              · rw [List.nil_append]
                exact hlast
            have hnd2 : noDupL w2' = true :=
              writeFile_noDup (entrySegs e) w w2' (entryContent e) hww hnd
            rw [processEntries_cons_ok e rest w w2' hv hwe_w]
            exact ih d2 w2' hnd2 hag2
    · have hv2 := validEntry_false_of_not e hv
      rw [writtenPaths_cons_skip e rest d hv2,
        processEntries_cons_skip e rest d hv2] at hag
      have hag2 : agreeL (writtenPaths rest d) [] w (processEntries rest d).dir := hag
      rw [processEntries_cons_skip e rest w hv2,
        processEntries_cons_skip e rest d hv2, ih d w hnd hag2]

/-! ## Claim C7 — running the writer twice equals running it once -/

/-- The faithfulness condition on the initial output root: absent, or a
directory tree with unique entry names (as every real directory is). -/
def noDupRoot : Option Dir → Bool
  | none => true
  | some d => noDupL d

/-- C7: for every input document and every output root (absent or a real
directory tree), running the Tree Writer twice in succession with the same
arguments produces exactly the same result as running it once: the same
final tree on disk (overwrite semantics, no duplication, no error from the
directories the first run created), the same exit code and the same skipped
entries. -/
theorem writer_idempotent (doc : InputDoc) (root0 : Option Dir)
    (hnd : noDupRoot root0 = true) :
    generateProject doc (generateProject doc root0).root =
      generateProject doc root0 := by
  cases doc with
  | notFound => rfl
  | invalidJSON => rfl
  | noProjectFiles => rfl
  | notArray => rfl
  | files es =>
    have hnd0 : noDupL (root0.getD []) = true := by
      cases root0 with
      | none => rfl
      | some d => exact hnd
    have hrepl : processEntries es (processEntries es (root0.getD [])).dir =
        processEntries es (root0.getD []) := by
      refine processEntries_replay es (root0.getD []) _ ?_ (agreeL_refl _ _ _)
      exact (processEntries_kinds es (root0.getD [])).2.2 hnd0
    show (⟨some (processEntries es (processEntries es (root0.getD [])).dir).dir,
      if (processEntries es (processEntries es (root0.getD [])).dir).failed
        then 1 else 0,
      (processEntries es (processEntries es (root0.getD [])).dir).skipped⟩ :
        GenResult) = generateProject (.files es) root0
    rw [hrepl]
    rfl

/-- Witness for C7: the spec's concrete two-entry document against a
nonexistent root, written twice. -/
theorem writer_idempotent_witness :
    generateProject
      (.files [⟨some "a.txt", some "hi"⟩, ⟨some "sub/b.txt", some "yo"⟩])
      ((generateProject
        (.files [⟨some "a.txt", some "hi"⟩, ⟨some "sub/b.txt", some "yo"⟩])
        none).root) =
    generateProject
      (.files [⟨some "a.txt", some "hi"⟩, ⟨some "sub/b.txt", some "yo"⟩])
      none :=
  writer_idempotent
    (.files [⟨some "a.txt", some "hi"⟩, ⟨some "sub/b.txt", some "yo"⟩])
    none rfl

end JsUtil
